import Mathlib

/-!
Verification of the DocStructureX outline extractor (src/main.py).

The Python source is shallowly embedded: document text is `List Char`,
font sizes and time budgets are `ℚ`, fallible strategies return `Option`
or `Except`, and the regular expressions of the source are embedded as
executable recursive matchers that follow Python's leftmost /
greedy-with-backtracking semantics for the concrete patterns involved
(for these patterns greedy matching never needs to backtrack, as argued
at each definition).  Case-insensitive matching is modelled for ASCII
letters, the alphabet all the patterns use.
-/

/-- ASCII whitespace recognised by Python's regex class and str.strip():
space, tab, newline, carriage return, vertical tab, form feed.
(The Unicode-only whitespace code points are not modelled; no claim
depends on them.) -/
def isPySpace (c : Char) : Bool :=
  c = ' ' || c = '\t' || c = '\n' || c = '\r' || c = '\x0b' || c = '\x0c'

/-- One step of whitespace-run collapsing: `prevWs` records whether the
previously emitted character was the space standing for a whitespace run
still in progress. -/
def collapseWsAux : Bool → List Char → List Char
  | _, [] => []
  | prevWs, c :: rest =>
    if isPySpace c then
      if prevWs then collapseWsAux true rest
      else ' ' :: collapseWsAux true rest
    else c :: collapseWsAux false rest

/-- Python re.sub(r'\s+', ' ', s): every maximal whitespace run becomes a
single space. -/
def collapseWs (s : List Char) : List Char :=
  collapseWsAux false s

/-- Python s.strip(chars): remove the longest runs of characters from
`cs` at both ends. -/
def stripChars (cs : List Char) (s : List Char) : List Char :=
  (((s.dropWhile fun c => decide (c ∈ cs)).reverse.dropWhile fun c =>
    decide (c ∈ cs))).reverse

/-- Python s.strip() with no argument: strip whitespace at both ends. -/
def stripWs (s : List Char) : List Char :=
  ((s.dropWhile isPySpace).reverse.dropWhile isPySpace).reverse

/-- The punctuation-and-space set of MetadataStrategy's strip(' .,;:'). -/
def tocStripSet : List Char := [' ', '.', ',', ';', ':']

/-- The punctuation set of the layout cleanup pass strip('.,;:'). -/
def punctStripSet : List Char := ['.', ',', ';', ':']

/-- Heading levels H1/H2/H3. -/
inductive HLevel where
  | h1
  | h2
  | h3
deriving DecidableEq, Repr

/-- One outline entry {level, text, page}. -/
structure Entry where
  level : HLevel
  text : List Char
  page : Int
deriving DecidableEq, Repr

/-- An outline candidate {title, outline}. -/
structure Outline where
  title : List Char
  outline : List Entry
deriving DecidableEq, Repr

/-- The sentinel title. -/
def untitledTitle : List Char := "Untitled Document".toList

/-- The sentinel outline returned when no strategy's candidate is accepted. -/
def untitledOutline : Outline := { title := untitledTitle, outline := [] }

/-- The sentinel outline produced by the top-level exception handler. -/
def errorOutline : Outline := { title := "Error in Processing".toList, outline := [] }

/-- One native bookmark item (nestingLevel, rawTitle, page) as delivered
by doc.get_toc(). -/
structure TocItem where
  level : Int
  title : List Char
  page : Int
deriving DecidableEq, Repr

/-- Normalisation applied to a raw bookmark title:
re.sub(r'\s+', ' ', title).strip(' .,;:'). -/
def normalizeTocTitle (s : List Char) : List Char :=
  stripChars tocStripSet (collapseWs s)

/-- Level mapping: 1 maps to H1, 2 to H2, anything else to H3. -/
def mapTocLevel (l : Int) : HLevel :=
  if l = 1 then .h1 else if l = 2 then .h2 else .h3

/-- The body of the `for level, title, page in toc` loop of
`_extract_with_toc` (src/main.py lines 46-56). -/
def tocLoop : List TocItem → List Entry
  | [] => []
  | item :: rest =>
    let titleClean := normalizeTocTitle item.title
    if titleClean.isEmpty || titleClean.length < 3 || titleClean.length > 150 then
      tocLoop rest
    else
      { level := mapTocLevel item.level, text := titleClean, page := item.page } :: tocLoop rest

/-- `_extract_with_toc` (src/main.py lines 40-63), starting from the
bookmark list the document engine returned.  `none` is Python's None. -/
def extract_with_toc (toc : List TocItem) : Option Outline :=
  if toc.isEmpty then none
  else
    let outline := tocLoop toc
    match outline with
    | [] => none
    | first :: _ =>
      let documentTitle := if first.text.length > 100 then untitledTitle else first.text
      some { title := documentTitle, outline := outline }

/-- Match a literal given as (expected, alternate) character pairs against
the start of `s`; a character matches a pair when it equals either
component.  With identical components this is case-sensitive literal
matching; with an upper/lower pair it is Python re.IGNORECASE on ASCII.
Returns the consumed characters (in their original spelling) and the rest. -/
def litPairs : List (Char × Char) → List Char → Option (List Char × List Char)
  | [], s => some ([], s)
  | _ :: _, [] => none
  | p :: ps, c :: rest =>
    if c = p.1 || c = p.2 then
      (litPairs ps rest).map fun x => (c :: x.1, x.2)
    else none

/-- ASCII uppercase letter, the regex class [A-Z]. -/
def isUpperAZ (c : Char) : Bool :=
  65 ≤ c.toNat && c.toNat ≤ 90

/-- The regex class [IVXLC] of the roman-numeral alternative. -/
def isRomanChar (c : Char) : Bool :=
  c = 'I' || c = 'V' || c = 'X' || c = 'L' || c = 'C'

/-- Case-insensitive pair spellings of the keyword literals. -/
def ciChapter : List (Char × Char) :=
  [('c', 'C'), ('h', 'H'), ('a', 'A'), ('p', 'P'), ('t', 'T'), ('e', 'E'), ('r', 'R')]

def ciSection : List (Char × Char) :=
  [('s', 'S'), ('e', 'E'), ('c', 'C'), ('t', 'T'), ('i', 'I'), ('o', 'O'), ('n', 'N')]

def ciPart : List (Char × Char) :=
  [('p', 'P'), ('a', 'A'), ('r', 'R'), ('t', 'T')]

/-- After an optional '.', require at least one whitespace character: the
tail `\.?\s+` shared by the numbering alternatives.  A greedy `\.?` is
faithful: when the optional dot is present but no whitespace follows it,
backtracking retries `\s+` on the dot itself, which fails since '.' is
not whitespace. -/
def optDotThenWs (s : List Char) : Bool :=
  match s with
  | '.' :: r => !(r.takeWhile isPySpace).isEmpty
  | r => !(r.takeWhile isPySpace).isEmpty

/-- Alternative `\d+\.?\s+` of the numbering regex. -/
def altNumSimple (s : List Char) : Bool :=
  !(s.takeWhile Char.isDigit).isEmpty && optDotThenWs (s.dropWhile Char.isDigit)

/-- Alternative `\d+\.\d+\.?\s+` of the numbering regex. -/
def altNumDotted (s : List Char) : Bool :=
  !(s.takeWhile Char.isDigit).isEmpty &&
    match s.dropWhile Char.isDigit with
    | '.' :: r2 =>
      !(r2.takeWhile Char.isDigit).isEmpty && optDotThenWs (r2.dropWhile Char.isDigit)
    | _ => false

/-- Alternative `[IVXLC]+\.?\s+` of the numbering regex. -/
def altRoman (s : List Char) : Bool :=
  !(s.takeWhile isRomanChar).isEmpty && optDotThenWs (s.dropWhile isRomanChar)

/-- re.match(r'^(\d+\.?\s+|\d+\.\d+\.?\s+|[IVXLC]+\.?\s+)', text)
(src/main.py line 133), as a boolean test. -/
def numberedPat (s : List Char) : Bool :=
  altNumSimple s || altNumDotted s || altRoman s

/-- re.match(r'^(Chapter|Section|Part)\s+\d+', text, re.IGNORECASE)
(src/main.py line 134).  The three keywords start with distinct letters,
so ordered alternation is plain disjunction. -/
def chapterPat (s : List Char) : Bool :=
  match (litPairs ciChapter s).orElse (fun _ => (litPairs ciSection s).orElse
      (fun _ => litPairs ciPart s)) with
  | some (_, r1) =>
    !(r1.takeWhile isPySpace).isEmpty &&
      !((r1.dropWhile isPySpace).takeWhile Char.isDigit).isEmpty
  | none => false

/-- re.match(r'^\d+\.\s+[A-Z]', text) (src/main.py line 143). -/
def numDotCapPat (s : List Char) : Bool :=
  !(s.takeWhile Char.isDigit).isEmpty &&
    match s.dropWhile Char.isDigit with
    | '.' :: r2 =>
      !(r2.takeWhile isPySpace).isEmpty &&
        match r2.dropWhile isPySpace with
        | c :: _ => isUpperAZ c
        | [] => false
    | _ => false

/-- re.match(r'^\d+\.\d+\s+[A-Z]', text) (src/main.py line 145). -/
def numDotNumCapPat (s : List Char) : Bool :=
  !(s.takeWhile Char.isDigit).isEmpty &&
    match s.dropWhile Char.isDigit with
    | '.' :: r2 =>
      !(r2.takeWhile Char.isDigit).isEmpty &&
        match r2.dropWhile Char.isDigit with
        | r3 =>
          !(r3.takeWhile isPySpace).isEmpty &&
            match r3.dropWhile isPySpace with
            | c :: _ => isUpperAZ c
            | [] => false
    | _ => false

/-- `_heading_level` (src/main.py lines 129-147).  `none` is Python's
None ("not a heading").  is_bold is font_flags bit 4 (2 to the 4th). -/
def heading_level (text : List Char) (fontSize bodyFontSize : ℚ) (fontFlags : Nat) :
    Option HLevel :=
  let sizeDiff := fontSize - bodyFontSize
  let isBold := fontFlags.testBit 4
  let numbered := numberedPat text
  let chapter := chapterPat text
  if sizeDiff ≥ 6 then some .h1
  else if sizeDiff ≥ 4 || (sizeDiff ≥ 2 && isBold) then
    (if sizeDiff ≥ 4 then some .h2 else some .h3)
  else if isBold && (numbered || chapter) then some .h2
  else if numbered && sizeDiff ≥ 1 then some .h3
  else if numDotCapPat text then some .h2
  else if numDotNumCapPat text then some .h3
  else none

/-- Case-sensitive pair spelling of a literal. -/
def csP (s : List Char) : List (Char × Char) := s.map fun c => (c, c)

/-- Substring test: some position of `s` starts with the paired literal. -/
def hasSubP (ps : List (Char × Char)) : List Char → Bool
  | [] => (litPairs ps []).isSome
  | c :: r => (litPairs ps (c :: r)).isSome || hasSubP ps r

def ciPageSp : List (Char × Char) :=
  [('p', 'P'), ('a', 'A'), ('g', 'G'), ('e', 'E'), (' ', ' ')]

def ciCopyright : List (Char × Char) :=
  [('c', 'C'), ('o', 'O'), ('p', 'P'), ('y', 'Y'), ('r', 'R'), ('i', 'I'), ('g', 'G'),
   ('h', 'H'), ('t', 'T')]

def ciAllRights : List (Char × Char) :=
  [('a', 'A'), ('l', 'L'), ('l', 'L'), (' ', ' '), ('r', 'R'), ('i', 'I'), ('g', 'G'),
   ('h', 'H'), ('t', 'T'), ('s', 'S'), (' ', ' '), ('r', 'R'), ('e', 'E'), ('s', 'S'),
   ('e', 'E'), ('r', 'R'), ('v', 'V'), ('e', 'E'), ('d', 'D')]

def ciPage : List (Char × Char) :=
  [('p', 'P'), ('a', 'A'), ('g', 'G'), ('e', 'E')]

def ciTableOfContents : List (Char × Char) :=
  [('t', 'T'), ('a', 'A'), ('b', 'B'), ('l', 'L'), ('e', 'E'), (' ', ' '), ('o', 'O'),
   ('f', 'F'), (' ', ' '), ('c', 'C'), ('o', 'O'), ('n', 'N'), ('t', 'T'), ('e', 'E'),
   ('n', 'N'), ('t', 'T'), ('s', 'S')]

/-- `_is_artifact` (src/main.py lines 149-156).  The lowercase-substring
tests model Python's `artifact in text.lower()`; `$` in `^\d+$` also
matches just before a final newline, as in Python. -/
def is_artifact (t : List Char) : Bool :=
  (!(t.takeWhile Char.isDigit).isEmpty &&
      (t.dropWhile Char.isDigit = [] || t.dropWhile Char.isDigit = ['\n'])) ||
  (match litPairs ciPageSp t with
   | some (_, r) => !(r.takeWhile Char.isDigit).isEmpty
   | none => false) ||
  hasSubP ciCopyright t || hasSubP ciAllRights t || hasSubP ciPage t ||
  hasSubP ciTableOfContents t ||
  hasSubP (csP "http".toList) t || hasSubP (csP "www.".toList) t || t.contains '@'

/-- A positioned text fragment delivered by the document engine for one
page: span text, font size, style-flag bitmask, and the vertical
coordinate bbox[1] used by title detection. -/
structure Span where
  text : List Char
  size : ℚ
  flags : Nat
  y : ℚ
deriving DecidableEq, Repr

/-- One collected block (src/main.py lines 77-83). -/
structure Block where
  text : List Char
  page : Int
  font_size : ℚ
  font_flags : Nat
  y : ℚ
deriving DecidableEq, Repr

/-- The page/span collection loop of `_extract_with_pymupdf`
(src/main.py lines 68-86).  `pageCont k` tells whether the advisory time
check after page index `k` lets the loop continue: the wall clock is an
oracle of the embedding. -/
def gatherAux (pageCont : Nat → Bool) : Nat → List (List Span) → List Block
  | _, [] => []
  | idx, pg :: rest =>
    let blocks := pg.filterMap fun sp =>
      let t := stripWs sp.text
      if !t.isEmpty && t.length > 2 then
        some { text := t, page := (idx + 1 : Int), font_size := sp.size,
               font_flags := sp.flags, y := sp.y }
      else none
    blocks ++ (if pageCont idx then gatherAux pageCont (idx + 1) rest else [])

/-- Block collection over at most the first 50 pages. -/
def gatherBlocks (pageCont : Nat → Bool) (pages : List (List Span)) : List Block :=
  gatherAux pageCont 0 (pages.take 50)

/-- Python statistics.mode (CPython 3.8+): the most frequent element,
ties broken in favour of the element whose first occurrence comes
earliest; none on empty input.  Folding with a strict comparison keeps
exactly that element. -/
def firstMode (l : List ℚ) : Option ℚ :=
  l.foldl
    (fun acc v =>
      match acc with
      | none => some v
      | some b => if l.count v > l.count b then some v else acc)
    none

/-- Body-font estimation (src/main.py lines 88-92): the mode of the
positive font sizes, or 12 when there are none.  On CPython 3.8+
statistics.mode never raises on non-empty data, so the bare except falls
back to 12 only through the empty-list guard. -/
def computeBodyFont (blocks : List Block) : ℚ :=
  let fontSizes := (blocks.map (·.font_size)).filter (fun s => s > 0)
  match firstMode fontSizes with
  | some m => m
  | none => 12

/-- Insert keeping existing ≤-order, before the first element the new one
is ≤-below-or-tied-with; a stable insertion. -/
def insSorted (le : α → α → Bool) (x : α) : List α → List α
  | [] => [x]
  | y :: ys => if le x y then x :: y :: ys else y :: insSorted le x ys

/-- Stable insertion sort.  For a total preorder `le` this produces the
same list as Python's stable list.sort with the corresponding key. -/
def sortBy (le : α → α → Bool) : List α → List α
  | [] => []
  | x :: xs => insSorted le x (sortBy le xs)

/-- Code-point lexicographic ≤ on text, Python's string comparison. -/
def textLe : List Char → List Char → Bool
  | [], _ => true
  | _ :: _, [] => false
  | a :: as, b :: bs =>
    if a.toNat < b.toNat then true
    else if b.toNat < a.toNat then false
    else textLe as bs

/-- The sort key (page, bbox-y) of title detection (src/main.py line 101). -/
def pageYLe (a b : Block) : Bool :=
  a.page < b.page || (a.page = b.page && a.y ≤ b.y)

/-- The sort key (page, text) of heading output (src/main.py line 126). -/
def pageTextLe (a b : Entry) : Bool :=
  a.page < b.page || (a.page = b.page && textLe a.text b.text)

/-- `_extract_title` (src/main.py lines 97-106). -/
def extract_title (blocks : List Block) (bodyFontSize : ℚ) : List Char :=
  let firstPages := blocks.filter fun b => b.page ≤ 3
  let candidates := firstPages.filter fun b =>
    b.font_size > bodyFontSize + 2 && 5 < b.text.length && b.text.length < 200
  match sortBy pageYLe candidates with
  | c :: _ => c.text
  | [] =>
    match firstPages.find? fun b => b.text.length > 10 with
    | some b => b.text
    | none => untitledTitle

/-- The block loop of `_extract_headings_multilayer` (src/main.py lines
111-125): duplicate raw text, out-of-bounds lengths and artifacts are
skipped, accepted headings enter `seen`, and `blockCont k` is the
advisory time check after block `k`. -/
def collectAux (blockCont : Nat → Bool) (bodyFontSize : ℚ) :
    List Block → List (List Char) → Nat → List Entry
  | [], _, _ => []
  | b :: rest, seen, k =>
    let text := stripWs b.text
    let step :=
      if decide (text ∈ seen) || text.length < 3 || text.length > 150 || is_artifact text then
        (([] : List Entry), seen)
      else
        match heading_level text b.font_size bodyFontSize b.font_flags with
        | some lvl => ([{ level := lvl, text := text, page := b.page }], text :: seen)
        | none => (([] : List Entry), seen)
    step.1 ++ (if blockCont k then collectAux blockCont bodyFontSize rest step.2 (k + 1) else [])

/-- `_clean_headings` (src/main.py lines 158-167): re-normalise each text
and keep the first entry bearing each normalised text. -/
def clean_headings : List Entry → List (List Char) → List Entry
  | [], _ => []
  | h :: rest, seen =>
    let text := stripChars punctStripSet (collapseWs h.text)
    if !text.isEmpty && !decide (text ∈ seen) && text.length ≥ 3 then
      { h with text := text } :: clean_headings rest (text :: seen)
    else clean_headings rest seen

/-- `_extract_headings_multilayer` (src/main.py lines 108-127): collect,
sort by (page, text), then clean. -/
def extract_headings_multilayer (blockCont : Nat → Bool) (blocks : List Block)
    (bodyFontSize : ℚ) : List Entry :=
  clean_headings (sortBy pageTextLe (collectAux blockCont bodyFontSize blocks [] 0)) []

/-- `_extract_with_pymupdf` (src/main.py lines 65-95), from the document
engine's per-page spans.  It always returns an Outline dict, never None. -/
def extract_with_pymupdf (pageCont blockCont : Nat → Bool)
    (pages : List (List Span)) : Outline :=
  let allBlocks := gatherBlocks pageCont pages
  let bodyFont := computeBodyFont allBlocks
  { title := extract_title allBlocks bodyFont,
    outline := extract_headings_multilayer blockCont allBlocks bodyFont }

/-- The decimal digit characters. -/
def digitChar : Nat → Char
  | 0 => '0' | 1 => '1' | 2 => '2' | 3 => '3' | 4 => '4'
  | 5 => '5' | 6 => '6' | 7 => '7' | 8 => '8' | _ => '9'

/-- Fuelled decimal rendering (most significant digit first). -/
def natDigitsAux : Nat → Nat → List Char
  | 0, _ => []
  | fuel + 1, n =>
    if n < 10 then [digitChar n]
    else natDigitsAux fuel (n / 10) ++ [digitChar (n % 10)]

/-- Python str(n) for a natural number. -/
def natDigits (n : Nat) : List Char := natDigitsAux (n + 1) n

/-- Numeric value of a digit character. -/
def digitVal (c : Char) : Nat := c.toNat - 48

/-- Greedy `\d+` value accumulation. -/
def parseDigitsAux (acc : Nat) : List Char → Nat × List Char
  | [] => (acc, [])
  | c :: rest =>
    if c.isDigit then parseDigitsAux (acc * 10 + digitVal c) rest else (acc, c :: rest)

/-- The inline page marker f"[PAGE_{n}]" (src/main.py line 174). -/
def pageMarker (n : Nat) : List Char :=
  '[' :: 'P' :: 'A' :: 'G' :: 'E' :: '_' :: (natDigits n ++ [']'])

/-- The concatenated text `all_text`, page texts prefixed by their
markers, numbering from `i`. -/
def buildFrom (i : Nat) : List (List Char) → List Char
  | [] => []
  | p :: ps => pageMarker i ++ p ++ buildFrom (i + 1) ps

/-- The marker literal "[PAGE_" in case-sensitive pair spelling. -/
def markerCS : List (Char × Char) := csP "[PAGE_".toList

/-- The marker literal under re.IGNORECASE. -/
def markerCI : List (Char × Char) :=
  [('[', '['), ('p', 'P'), ('a', 'A'), ('g', 'G'), ('e', 'E'), ('_', '_')]

/-- `\[PAGE_(\d+)\]`: the marker literal, then greedy digits, then ']'.
Greedy `\d+` is faithful: any shorter digit split leaves a digit where
']' is required. -/
def parseMarker (ps : List (Char × Char)) (s : List Char) : Option (Nat × List Char) :=
  match litPairs ps s with
  | none => none
  | some (_, r1) =>
    let d := r1.takeWhile Char.isDigit
    if d.isEmpty then none
    else
      match r1.dropWhile Char.isDigit with
      | ']' :: r2 => some ((parseDigitsAux 0 d).1, r2)
      | _ => none

/-- `\d+\.\d*\s+[A-Z][^\n]{5,80}` matched at the start of `s`, greedily;
returns (matched text, rest).  Greediness never needs backtracking: after
maximal digits only '.' can follow, after maximal `\d*` only whitespace,
after maximal `\s+` only [A-Z], and `{5,80}` ends the pattern. -/
def tryNum (s : List Char) : Option (List Char × List Char) :=
  let d1 := s.takeWhile Char.isDigit
  if d1.isEmpty then none
  else
    match s.dropWhile Char.isDigit with
    | '.' :: r2 =>
      let d2 := r2.takeWhile Char.isDigit
      let r3 := r2.dropWhile Char.isDigit
      let w := r3.takeWhile isPySpace
      if w.isEmpty then none
      else
        match r3.dropWhile isPySpace with
        | c :: r5 =>
          if isUpperAZ c then
            let tl := (r5.takeWhile (fun x => x ≠ '\n')).take 80
            if 5 ≤ tl.length then
              some (d1 ++ '.' :: (d2 ++ w ++ c :: tl), r5.drop tl.length)
            else none
          else none
        | [] => none
    | _ => none

/-- `(Chapter|Section)\s+\d+[^\n]{0,50}` matched at the start of `s`
under re.IGNORECASE; returns (matched text, rest). -/
def tryChap (s : List Char) : Option (List Char × List Char) :=
  match (litPairs ciChapter s).orElse (fun _ => litPairs ciSection s) with
  | none => none
  | some (kw, r1) =>
    let w := r1.takeWhile isPySpace
    if w.isEmpty then none
    else
      let r2 := r1.dropWhile isPySpace
      let d := r2.takeWhile Char.isDigit
      if d.isEmpty then none
      else
        let r3 := r2.dropWhile Char.isDigit
        let tl := (r3.takeWhile (fun x => x ≠ '\n')).take 50
        some (kw ++ w ++ d ++ tl, r3.drop tl.length)

/-- `[A-Z][^\n]{10,100}` matched at the start of `s`; returns
(matched text, rest). -/
def tryTitle (s : List Char) : Option (List Char × List Char) :=
  match s with
  | c :: r =>
    if isUpperAZ c then
      let tl := (r.takeWhile (fun x => x ≠ '\n')).take 100
      if 10 ≤ tl.length then some (c :: tl, r.drop tl.length) else none
    else none
  | [] => none

/-- The lazy bridge `.*?` before a sub-pattern: try the sub-pattern at
each position in turn, consuming only non-newline characters, exactly
re's shortest-first expansion of `.*?` without DOTALL. -/
def findOnLine (tryH : List Char → Option (List Char × List Char)) :
    List Char → Option (List Char × List Char)
  | [] => none
  | c :: rest =>
    match tryH (c :: rest) with
    | some r => some r
    | none => if c = '\n' then none else findOnLine tryH rest

/-- A whole-match attempt of the numbered-heading pattern
`\[PAGE_(\d+)\].*?(\d+\.\d*\s+[A-Z][^\n]{5,80})` at the start of `s`:
(page number, group 2, rest after the match). -/
def matchNum (s : List Char) : Option ((Nat × List Char) × List Char) :=
  match parseMarker markerCS s with
  | none => none
  | some (n, r) =>
    match findOnLine tryNum r with
    | some (t, rest) => some ((n, t), rest)
    | none => none

/-- A whole-match attempt of the chapter pattern
`\[PAGE_(\d+)\].*?((Chapter|Section)\s+\d+[^\n]{0,50})` under
re.IGNORECASE at the start of `s`. -/
def matchChap (s : List Char) : Option ((Nat × List Char) × List Char) :=
  match parseMarker markerCI s with
  | none => none
  | some (n, r) =>
    match findOnLine tryChap r with
    | some (t, rest) => some ((n, t), rest)
    | none => none

/-- re.finditer: try the matcher at every position left to right, skip
over each match found, collect the results.  `skip` counts characters of
a previous match still to be stepped over, which keeps the recursion
structural. -/
def scanAux (m : List Char → Option ((Nat × List Char) × List Char)) :
    Nat → List Char → List (Nat × List Char)
  | _, [] => []
  | skip + 1, _ :: rest => scanAux m skip rest
  | 0, c :: rest =>
    match m (c :: rest) with
    | some (a, r) => a :: scanAux m (rest.length - r.length) rest
    | none => scanAux m 0 rest

/-- All non-overlapping matches of `m` in `s`, leftmost first. -/
def scanMatches (m : List Char → Option ((Nat × List Char) × List Char))
    (s : List Char) : List (Nat × List Char) :=
  scanAux m 0 s

/-- A whole-match attempt of the title pattern
`\[PAGE_1\].*?([A-Z][^\n]{10,100})` at the start of `s` (group 1 only). -/
def titleAt (s : List Char) : Option (List Char) :=
  match litPairs (csP "[PAGE_1]".toList) s with
  | some (_, r) =>
    match findOnLine tryTitle r with
    | some (t, _) => some t
    | none => none
  | none => none

/-- re.search of the title pattern: first position with a whole match. -/
def searchTitle : List Char → Option (List Char)
  | [] => none
  | c :: rest =>
    match titleAt (c :: rest) with
    | some t => some t
    | none => searchTitle rest

/-- `_extract_with_regex_fallback` (src/main.py lines 169-188), from the
raw per-page texts.  Pass one yields H2/H3 numbered headings, pass two
H1 chapter headings; entries are the first 20 of their concatenation. -/
def extract_with_regex_fallback (pages : List (List Char)) : Outline :=
  let allText := buildFrom 1 (pages.take 50)
  let pass1 := (scanMatches matchNum allText).map fun x =>
    let t := stripWs x.2
    { level := if 1 < t.count '.' then HLevel.h3 else HLevel.h2,
      text := t, page := (x.1 : Int) }
  let pass2 := (scanMatches matchChap allText).map fun x =>
    { level := HLevel.h1, text := stripWs x.2, page := (x.1 : Int) }
  let title :=
    match searchTitle allText with
    | some t => stripWs t
    | none => untitledTitle
  { title := title, outline := (pass1 ++ pass2).take 20 }

/-- `_validate_result` (src/main.py lines 190-196) on a strategy result:
None is rejected, an outline dict is accepted iff its entry count lies in
[1, 100].  (The non-dict / missing-key branches are unreachable in the
typed embedding.) -/
def validateOutline (o : Outline) : Bool :=
  1 ≤ o.outline.length && o.outline.length ≤ 100

def validateOpt : Option Outline → Bool
  | none => false
  | some o => validateOutline o

/-- One run of the driver as seen from `extract_outline` (src/main.py
lines 17-38): the outcome of each strategy call (a value, or a raised
exception carried by `Except.error`), and the two wall-clock readings
`self._time_left()` taken at lines 24 and 29.  All are fixed by the
document and the environment before the branching logic runs. -/
structure DriverEnv where
  tocResult : Except String (Option Outline)
  t1 : ℚ
  layoutResult : Except String Outline
  t2 : ℚ
  patternResult : Except String Outline

/-- The fallback stage at line 29: gate on t2 > 1.0, run PatternStrategy,
accept or fall through to the untitled sentinel.  The second component
records whether LayoutStrategy was invoked, the third whether
PatternStrategy was. -/
def patternStage (env : DriverEnv) (layoutInv : Bool) : Outline × Bool × Bool :=
  if env.t2 > 1 then
    match env.patternResult with
    | .error _ => (errorOutline, layoutInv, true)
    | .ok po =>
      if validateOutline po then (po, layoutInv, true)
      else (untitledOutline, layoutInv, true)
  else (untitledOutline, layoutInv, false)

/-- The heuristic stage at line 24: gate on t1 > 5.0, run LayoutStrategy,
accept or fall through. -/
def layoutStage (env : DriverEnv) : Outline × Bool × Bool :=
  if env.t1 > 5 then
    match env.layoutResult with
    | .error _ => (errorOutline, true, false)
    | .ok lo =>
      if validateOutline lo then (lo, true, false)
      else patternStage env true
  else patternStage env false

/-- `extract_outline` (src/main.py lines 17-38) with invocation
instrumentation: the result outline, whether LayoutStrategy ran, and
whether PatternStrategy ran.  An `Except.error` anywhere is the uncaught
Python exception reaching the top-level handler, which stops the chain
and yields the error sentinel. -/
def runDriver (env : DriverEnv) : Outline × Bool × Bool :=
  match env.tocResult with
  | .error _ => (errorOutline, false, false)
  | .ok tocRes =>
    match tocRes with
    | some o => if validateOutline o then (o, false, false) else layoutStage env
    | none => layoutStage env

/-- The outline `extract_outline` returns. -/
def extract_outline (env : DriverEnv) : Outline := (runDriver env).1

/-- Whether LayoutStrategy was invoked during the run. -/
def layoutInvoked (env : DriverEnv) : Bool := (runDriver env).2.1

/-- Whether PatternStrategy was invoked during the run. -/
def patternInvoked (env : DriverEnv) : Bool := (runDriver env).2.2

/-! ## Claim theorems -/

/-- The per-item transformation C2 describes: normalise the raw title,
discard when the normalised length is outside [3, 150], otherwise map
the nesting level (1 to H1, 2 to H2, anything else to H3) and keep the
page unchanged. -/
def tocKeepItem (item : TocItem) : Option Entry :=
  let t := normalizeTocTitle item.title
  if 3 ≤ t.length && t.length ≤ 150 then
    some { level := mapTocLevel item.level, text := t, page := item.page }
  else none

theorem tocLoop_eq_filterMap (l : List TocItem) : tocLoop l = l.filterMap tocKeepItem := by
  induction l with
  | nil => rfl
  | cons item rest ih =>
    simp only [tocLoop, tocKeepItem, List.filterMap_cons]
    by_cases h3 : 3 ≤ (normalizeTocTitle item.title).length
    · by_cases h150 : (normalizeTocTitle item.title).length ≤ 150
      · have hne : (normalizeTocTitle item.title).isEmpty = false := by
          cases hemp : (normalizeTocTitle item.title).isEmpty
          · rfl
          · rw [List.isEmpty_iff] at hemp
            rw [hemp] at h3
            simp at h3
        simp [hne, ih, h3, h150, Nat.not_lt.mpr h3, Nat.not_lt.mpr h150]
      · simp [ih, h3, h150]
    · have hlt : (normalizeTocTitle item.title).length < 3 := by omega
      simp [ih, hlt, h3]

/-- C2: MetadataStrategy returns no result when the bookmark list is
empty or normalisation discards every item; otherwise it returns, in
input order, one entry per retained item with the normalised text, the
1/2/other to H1/H2/H3 level mapping and the unchanged page, and the
title is the first retained entry's text, replaced by the sentinel when
longer than 100 characters. -/
theorem metadata_postcondition (toc : List TocItem) :
    extract_with_toc toc =
      (match toc.filterMap tocKeepItem with
       | [] => none
       | first :: restEntries =>
         some { title := if first.text.length > 100 then untitledTitle else first.text,
                outline := first :: restEntries }) ∧
    mapTocLevel 1 = HLevel.h1 ∧ mapTocLevel 2 = HLevel.h2 ∧
    (∀ l : Int, l ≠ 1 → l ≠ 2 → mapTocLevel l = HLevel.h3) := by
  refine ⟨?_, rfl, rfl, ?_⟩
  · unfold extract_with_toc
    rw [tocLoop_eq_filterMap]
    by_cases he : toc.isEmpty
    · have h0 : toc = [] := List.isEmpty_iff.mp he
      subst h0; simp
    · cases hfm : toc.filterMap tocKeepItem with
      | nil => simp [he, hfm]
      | cons first restEntries => simp [he, hfm]
  · intro l h1 h2
    simp [mapTocLevel, h1, h2]

/-- The decision table of C3: rules tried in order, first match wins,
over sizeDiff = fontSize - bodyFontSize. -/
def headingLevelTable (text : List Char) (fontSize bodyFontSize : ℚ) (fontFlags : Nat) :
    Option HLevel :=
  let d := fontSize - bodyFontSize
  let bold := fontFlags.testBit 4
  if d ≥ 6 then some .h1
  else if d ≥ 4 then some .h2
  else if 2 ≤ d ∧ d < 4 ∧ bold = true then some .h3
  else if bold = true ∧ (numberedPat text || chapterPat text) = true then some .h2
  else if numberedPat text = true ∧ d ≥ 1 then some .h3
  else if numDotCapPat text = true then some .h2
  else if numDotNumCapPat text = true then some .h3
  else none

/-- C3: `_heading_level` realises the claim's first-match-wins decision
table, and the scenario fragment "1. Overview" with fontSize 18,
bodyFontSize 12 and the bold bit set has sizeDiff 6 and is classified
H1. -/
theorem heading_level_matches_table :
    (∀ (text : List Char) (fontSize bodyFontSize : ℚ) (fontFlags : Nat),
      heading_level text fontSize bodyFontSize fontFlags =
        headingLevelTable text fontSize bodyFontSize fontFlags) ∧
    heading_level "1. Overview".toList 18 12 16 = some HLevel.h1 := by
  constructor
  · intro text fontSize bodyFontSize fontFlags
    unfold heading_level headingLevelTable
    by_cases h6 : 6 ≤ fontSize - bodyFontSize <;>
      by_cases h4 : 4 ≤ fontSize - bodyFontSize <;>
        by_cases h2 : 2 ≤ fontSize - bodyFontSize <;>
          by_cases hb : fontFlags.testBit 4 = true <;>
            first
              | simp [h6, h4, h2, hb, not_le.mp h4]
              | simp [h6, h4, h2, hb]
  · unfold heading_level
    norm_num

theorem patternStage_layoutFlag (env : DriverEnv) (lInv : Bool) :
    (patternStage env lInv).2.1 = lInv := by
  unfold patternStage
  by_cases h : env.t2 > 1
  · rw [if_pos h]
    cases env.patternResult with
    | error e => rfl
    | ok po => by_cases hv : validateOutline po <;> simp [hv]
  · rw [if_neg h]

theorem patternStage_patternFlag (env : DriverEnv) (lInv : Bool) (h : env.t2 ≤ 1) :
    (patternStage env lInv).2.2 = false := by
  unfold patternStage
  rw [if_neg (not_lt.mpr h)]

theorem layoutStage_layoutFlag (env : DriverEnv) (h : env.t1 ≤ 5) :
    (layoutStage env).2.1 = false := by
  unfold layoutStage
  rw [if_neg (not_lt.mpr h)]
  exact patternStage_layoutFlag env false

theorem layoutStage_patternFlag (env : DriverEnv) (h : env.t2 ≤ 1) :
    (layoutStage env).2.2 = false := by
  unfold layoutStage
  by_cases h5 : env.t1 > 5
  · rw [if_pos h5]
    cases env.layoutResult with
    | error e => rfl
    | ok lo =>
      by_cases hv : validateOutline lo <;>
        simp [hv, patternStage_patternFlag env true h]
  · rw [if_neg h5]
    exact patternStage_patternFlag env false h

theorem patternStage_untitled (env : DriverEnv) (lInv : Bool)
    (hpat : env.t2 > 1 → ∃ po, env.patternResult = .ok po ∧ validateOutline po = false) :
    (patternStage env lInv).1 = untitledOutline := by
  unfold patternStage
  by_cases h1 : env.t2 > 1
  · obtain ⟨po, hpo, hpov⟩ := hpat h1
    rw [if_pos h1, hpo]
    simp [hpov]
  · rw [if_neg h1]

theorem layoutStage_untitled (env : DriverEnv)
    (hlay : env.t1 > 5 → ∃ lo, env.layoutResult = .ok lo ∧ validateOutline lo = false)
    (hpat : env.t2 > 1 → ∃ po, env.patternResult = .ok po ∧ validateOutline po = false) :
    (layoutStage env).1 = untitledOutline := by
  unfold layoutStage
  by_cases h5 : env.t1 > 5
  · obtain ⟨lo, hlo, hlov⟩ := hlay h5
    rw [if_pos h5, hlo]
    simp only [hlov, Bool.false_eq_true, if_false]
    exact patternStage_untitled env true hpat
  · rw [if_neg h5]
    exact patternStage_untitled env false hpat

/-- C1: the driver's monotonic fallback gating.  Whatever the strategies
would return, a reading t1 ≤ 5.0 at the layout gate means LayoutStrategy
is never invoked, a reading t2 ≤ 1.0 at the pattern gate means
PatternStrategy is never invoked, and a run in which no strategy raises
and no candidate passes the validator returns the untitled sentinel
outline. -/
theorem driver_gating (env : DriverEnv) :
    (env.t1 ≤ 5 → layoutInvoked env = false) ∧
    (env.t2 ≤ 1 → patternInvoked env = false) ∧
    (∀ t, env.tocResult = .ok t → validateOpt t = false →
      (env.t1 > 5 → ∃ lo, env.layoutResult = .ok lo ∧ validateOutline lo = false) →
      (env.t2 > 1 → ∃ po, env.patternResult = .ok po ∧ validateOutline po = false) →
      extract_outline env = untitledOutline) := by
  refine ⟨?_, ?_, ?_⟩
  · intro h1
    unfold layoutInvoked runDriver
    cases env.tocResult with
    | error e => rfl
    | ok tocRes =>
      cases tocRes with
      | none => exact layoutStage_layoutFlag env h1
      | some o =>
        by_cases hv : validateOutline o <;>
          simp [hv, layoutStage_layoutFlag env h1]
  · intro h2
    unfold patternInvoked runDriver
    cases env.tocResult with
    | error e => rfl
    | ok tocRes =>
      cases tocRes with
      | none => exact layoutStage_patternFlag env h2
      | some o =>
        by_cases hv : validateOutline o <;>
          simp [hv, layoutStage_patternFlag env h2]
  · intro t htoc hval hlay hpat
    unfold extract_outline runDriver
    rw [htoc]
    cases t with
    | none => exact layoutStage_untitled env hlay hpat
    | some o =>
      have hvo : validateOutline o = false := hval
      simp only [hvo, Bool.false_eq_true, if_false]
      exact layoutStage_untitled env hlay hpat

/-- A concrete environment for the gating witness: both clock readings
below their gates, the metadata candidate rejected. -/
def envGateW : DriverEnv :=
  { tocResult := .ok none, t1 := 3, layoutResult := .ok untitledOutline,
    t2 := (1 : ℚ) / 2, patternResult := .ok untitledOutline }

theorem driver_gating_witness :
    layoutInvoked envGateW = false ∧ patternInvoked envGateW = false ∧
      extract_outline envGateW = untitledOutline := by
  obtain ⟨h1, h2, h3⟩ := driver_gating envGateW
  refine ⟨h1 (by norm_num [envGateW]), h2 (by norm_num [envGateW]), ?_⟩
  refine h3 none rfl rfl (fun h5 => absurd h5 (by norm_num [envGateW])) ?_
  intro h1'
  exact absurd h1' (by norm_num [envGateW])

/-- Whether the pattern stage's body raises, were control to reach it. -/
def patternRaises (env : DriverEnv) : Bool :=
  if env.t2 > 1 then
    match env.patternResult with
    | .error _ => true
    | .ok _ => false
  else false

/-- Whether the fallback stages raise, were control to reach them. -/
def stageRaises (env : DriverEnv) : Bool :=
  if env.t1 > 5 then
    match env.layoutResult with
    | .error _ => true
    | .ok lo => if validateOutline lo then false else patternRaises env
  else patternRaises env

/-- Whether anything in the whole attempt raises. -/
def attemptRaises (env : DriverEnv) : Bool :=
  match env.tocResult with
  | .error _ => true
  | .ok (some o) => if validateOutline o then false else stageRaises env
  | .ok none => stageRaises env

theorem validated_ne_errorOutline {o : Outline} (h : validateOutline o = true) :
    o ≠ errorOutline := by
  intro he
  subst he
  simp [validateOutline, errorOutline] at h

theorem untitled_ne_errorOutline : untitledOutline ≠ errorOutline := by
  decide

theorem patternStage_error_iff (env : DriverEnv) (lInv : Bool) :
    (patternStage env lInv).1 = errorOutline ↔ patternRaises env = true := by
  unfold patternStage patternRaises
  by_cases h1 : env.t2 > 1
  · rw [if_pos h1, if_pos h1]
    cases env.patternResult with
    | error e => simp
    | ok po =>
      by_cases hv : validateOutline po
      · simp [hv, validated_ne_errorOutline hv]
      · simp [hv, untitled_ne_errorOutline]
  · rw [if_neg h1, if_neg h1]
    simp [untitled_ne_errorOutline]

theorem layoutStage_error_iff (env : DriverEnv) :
    (layoutStage env).1 = errorOutline ↔ stageRaises env = true := by
  unfold layoutStage stageRaises
  by_cases h5 : env.t1 > 5
  · rw [if_pos h5, if_pos h5]
    cases env.layoutResult with
    | error e => simp
    | ok lo =>
      by_cases hv : validateOutline lo
      · simp [hv, validated_ne_errorOutline hv]
      · simp [hv, patternStage_error_iff env true]
  · rw [if_neg h5, if_neg h5]
    exact patternStage_error_iff env false

/-- C4: fault atomicity of the driver.  The result is the error sentinel
exactly when some stage of the attempt raises; a metadata fault is
caught at once with neither fallback invoked (no retry); a layout fault
is caught at once without invoking PatternStrategy.  (extract_outline is
a total function of the embedded environment, so no exception ever
propagates.) -/
theorem fault_atomicity (env : DriverEnv) :
    (extract_outline env = errorOutline ↔ attemptRaises env = true) ∧
    (∀ f, env.tocResult = .error f → runDriver env = (errorOutline, false, false)) ∧
    (∀ t f, env.tocResult = .ok t → validateOpt t = false → env.t1 > 5 →
      env.layoutResult = .error f → runDriver env = (errorOutline, true, false)) := by
  refine ⟨?_, ?_, ?_⟩
  · unfold extract_outline runDriver attemptRaises
    cases env.tocResult with
    | error e => simp
    | ok tocRes =>
      cases tocRes with
      | none => exact layoutStage_error_iff env
      | some o =>
        by_cases hv : validateOutline o
        · simp [hv, validated_ne_errorOutline hv]
        · simp only [hv, Bool.false_eq_true, if_false]
          exact layoutStage_error_iff env
  · intro f hf
    unfold runDriver
    rw [hf]
  · intro t f htoc hval h5 hlay
    unfold runDriver
    rw [htoc]
    have hls : layoutStage env = (errorOutline, true, false) := by
      unfold layoutStage
      rw [if_pos h5, hlay]
    cases t with
    | none => exact hls
    | some o =>
      have hvo : validateOutline o = false := hval
      simp only [hvo, Bool.false_eq_true, if_false]
      exact hls

/-- A concrete environment whose metadata stage raises. -/
def envFaultW : DriverEnv :=
  { tocResult := .error "ioerror", t1 := 9, layoutResult := .ok untitledOutline,
    t2 := 8, patternResult := .ok untitledOutline }

theorem fault_atomicity_witness :
    extract_outline envFaultW = errorOutline ∧
      runDriver envFaultW = (errorOutline, false, false) := by
  obtain ⟨h1, h2, _⟩ := fault_atomicity envFaultW
  exact ⟨h1.mpr (by decide), h2 "ioerror" rfl⟩

theorem indexOf_lt_of_mem_of_not_mem {α : Type} [DecidableEq α] {x y : α}
    {l₁ l₂ : List α} (hx : x ∈ l₁) (hy : y ∉ l₁) :
    (l₁ ++ l₂).indexOf x < (l₁ ++ l₂).indexOf y := by
  rw [List.indexOf_append_of_mem hx, List.indexOf_append_of_not_mem hy]
  calc l₁.indexOf x < l₁.length := List.indexOf_lt_length.mpr hx
    _ ≤ l₁.length + l₂.indexOf y := Nat.le_add_right _ _

/-- The fold step of `firstMode`. -/
def firstModeStep (l : List ℚ) (acc : Option ℚ) (v : ℚ) : Option ℚ :=
  match acc with
  | none => some v
  | some b => if l.count v > l.count b then some v else acc

theorem firstMode_eq_foldl (l : List ℚ) :
    firstMode l = l.foldl (firstModeStep l) none := by
  rfl

theorem firstMode_fold_invariant (l : List ℚ) :
    ∀ (rest pre : List ℚ) (b : ℚ), l = pre ++ rest → b ∈ pre →
      (∀ c ∈ pre, l.count c ≤ l.count b) →
      (∀ c ∈ pre, l.count c = l.count b → l.indexOf b ≤ l.indexOf c) →
      ∃ b', rest.foldl (firstModeStep l) (some b) = some b' ∧ b' ∈ l ∧
        (∀ c ∈ l, l.count c ≤ l.count b') ∧
        (∀ c ∈ l, l.count c = l.count b' → l.indexOf b' ≤ l.indexOf c) := by
  intro rest
  induction rest with
  | nil =>
    intro pre b hsplit hb hmax htie
    refine ⟨b, rfl, ?_, ?_, ?_⟩
    · rw [hsplit]; exact List.mem_append_left _ hb
    · intro c hc
      rw [hsplit] at hc
      rcases List.mem_append.mp hc with h | h
      · exact hmax c h
      · cases h
    · intro c hc hcnt
      rw [hsplit] at hc
      rcases List.mem_append.mp hc with h | h
      · exact htie c h hcnt
      · cases h
  | cons v rest ih =>
    intro pre b hsplit hb hmax htie
    rw [List.foldl_cons]
    by_cases hgt : l.count v > l.count b
    · have hstep : firstModeStep l (some b) v = some v := by
        simp [firstModeStep, hgt]
      rw [hstep]
      refine ih (pre ++ [v]) v (by rw [hsplit, List.append_assoc]; rfl)
        (List.mem_append_right _ (List.mem_singleton_self v)) ?_ ?_
      · intro c hc
        rcases List.mem_append.mp hc with h | h
        · exact le_of_lt (lt_of_le_of_lt (hmax c h) hgt)
        · rw [List.mem_singleton.mp h]
      · intro c hc hcnt
        rcases List.mem_append.mp hc with h | h
        · exact absurd hcnt (by have := lt_of_le_of_lt (hmax c h) hgt; omega)
        · rw [List.mem_singleton.mp h]
    · have hstep : firstModeStep l (some b) v = some b := by
        simp [firstModeStep, hgt]
      rw [hstep]
      refine ih (pre ++ [v]) b (by rw [hsplit, List.append_assoc]; rfl)
        (List.mem_append_left _ hb) ?_ ?_
      · intro c hc
        rcases List.mem_append.mp hc with h | h
        · exact hmax c h
        · rw [List.mem_singleton.mp h]; omega
      · intro c hc hcnt
        rcases List.mem_append.mp hc with h | h
        · exact htie c h hcnt
        · rw [List.mem_singleton.mp h] at hcnt ⊢
          by_cases hvpre : v ∈ pre
          · exact htie v hvpre hcnt
          · rw [hsplit]
            exact le_of_lt (indexOf_lt_of_mem_of_not_mem hb hvpre)

/-- `firstMode` of a non-empty list is its Python statistics.mode: a
member of maximal multiplicity whose first occurrence comes earliest
among the maximal ones. -/
theorem firstMode_spec (l : List ℚ) (hne : l ≠ []) :
    ∃ m, firstMode l = some m ∧ m ∈ l ∧
      (∀ c ∈ l, l.count c ≤ l.count m) ∧
      (∀ c ∈ l, l.count c = l.count m → l.indexOf m ≤ l.indexOf c) := by
  cases l with
  | nil => exact absurd rfl hne
  | cons v rest =>
    rw [firstMode_eq_foldl, List.foldl_cons]
    have hstep : firstModeStep (v :: rest) none v = some v := rfl
    rw [hstep]
    exact firstMode_fold_invariant (v :: rest) rest [v] v rfl
      (List.mem_singleton_self v) (fun c hc => by rw [List.mem_singleton.mp hc])
      (fun c hc _ => by rw [List.mem_singleton.mp hc])

/-- A fragment with a given font size (other fields immaterial). -/
def blkOf (q : ℚ) : Block :=
  { text := "body text".toList, page := 1, font_size := q, font_flags := 0, y := 0 }

/-- The positive font sizes of a fragment list (lines 88). -/
def positiveSizes (blocks : List Block) : List ℚ :=
  (blocks.map (·.font_size)).filter (fun s => s > 0)

theorem computeBodyFont_eq (blocks : List Block) :
    computeBodyFont blocks =
      match firstMode (positiveSizes blocks) with
      | some m => m
      | none => 12 := by
  rfl

/-- C7 counterexample: with positive font sizes [10, 10, 11, 11] there is
no unique mode (10 and 11 both occur twice), yet the body font size is
10, not the claimed default 12: CPython 3.8+ statistics.mode returns the
first-encountered mode, so the bare except never fires on ties. -/
theorem bodyfont_multimodal_counterexample :
    computeBodyFont [blkOf 10, blkOf 10, blkOf 11, blkOf 11] = 10 ∧
      ((10 : ℚ) = 12 → False) ∧
      (positiveSizes [blkOf 10, blkOf 10, blkOf 11, blkOf 11]).count 10 =
        (positiveSizes [blkOf 10, blkOf 10, blkOf 11, blkOf 11]).count 11 := by
  refine ⟨by decide, by decide, by decide⟩

/-- C7 amended: the body font size is 12 exactly when no fragment has a
positive font size; otherwise it is a positive font size of maximal
multiplicity whose first occurrence comes earliest among the maximal
ones (the first-encountered statistical mode), with no special treatment
of ties. -/
theorem bodyfont_first_mode (blocks : List Block) :
    (positiveSizes blocks = [] → computeBodyFont blocks = 12) ∧
    (positiveSizes blocks ≠ [] →
      computeBodyFont blocks ∈ positiveSizes blocks ∧
      (∀ c ∈ positiveSizes blocks,
        (positiveSizes blocks).count c ≤ (positiveSizes blocks).count (computeBodyFont blocks)) ∧
      (∀ c ∈ positiveSizes blocks,
        (positiveSizes blocks).count c = (positiveSizes blocks).count (computeBodyFont blocks) →
        (positiveSizes blocks).indexOf (computeBodyFont blocks) ≤
          (positiveSizes blocks).indexOf c)) := by
  constructor
  · intro h
    rw [computeBodyFont_eq, h]
    rfl
  · intro h
    obtain ⟨m, hm, hmem, hmax, htie⟩ := firstMode_spec (positiveSizes blocks) h
    have hbf : computeBodyFont blocks = m := by
      rw [computeBodyFont_eq, hm]
    rw [hbf]
    exact ⟨hmem, hmax, htie⟩

theorem bodyfont_first_mode_witness :
    computeBodyFont [blkOf 7, blkOf 9, blkOf 9] ∈ positiveSizes [blkOf 7, blkOf 9, blkOf 9] ∧
      computeBodyFont [blkOf 7, blkOf 9, blkOf 9] = 9 := by
  have h := (bodyfont_first_mode [blkOf 7, blkOf 9, blkOf 9]).2 (by decide)
  exact ⟨h.1, by decide⟩

/-- C8 counterexample: on a document whose engine yields no fragments at
all, `_extract_with_pymupdf` does not produce a distinct "no result"
sentinel; it returns the ordinary empty outline {Untitled Document, []},
the very object the claim says is distinct from its return. -/
theorem layout_no_sentinel_counterexample :
    extract_with_pymupdf (fun _ => true) (fun _ => true) [] = untitledOutline ∧
      (some (extract_with_pymupdf (fun _ => true) (fun _ => true) []) ≠
        (none : Option Outline)) ∧
      validateOutline (extract_with_pymupdf (fun _ => true) (fun _ => true) []) = false := by
  refine ⟨by decide, by decide, by decide⟩

/-- C8 amended: when the document engine yields no fragments,
LayoutStrategy returns the empty untitled outline rather than a distinct
no-result sentinel; the validator rejects that outline, so the driver
still falls through. -/
theorem layout_empty_outline (pageCont blockCont : Nat → Bool)
    (pages : List (List Span)) (h : gatherBlocks pageCont pages = []) :
    extract_with_pymupdf pageCont blockCont pages = untitledOutline ∧
      validateOutline (extract_with_pymupdf pageCont blockCont pages) = false := by
  have hmain : extract_with_pymupdf pageCont blockCont pages = untitledOutline := by
    unfold extract_with_pymupdf
    rw [h]
    rfl
  rw [hmain]
  exact ⟨rfl, by decide⟩

theorem layout_empty_outline_witness :
    extract_with_pymupdf (fun _ => true) (fun _ => true) [[]] = untitledOutline ∧
      validateOutline (extract_with_pymupdf (fun _ => true) (fun _ => true) [[]]) = false :=
  layout_empty_outline (fun _ => true) (fun _ => true) [[]] (by decide)

/-- No two adjacent whitespace characters. -/
def noAdjWs (a b : Char) : Prop := ¬(isPySpace a = true ∧ isPySpace b = true)

instance : DecidableRel noAdjWs := fun a b =>
  inferInstanceAs (Decidable (¬(isPySpace a = true ∧ isPySpace b = true)))

/-- The text contains no run of two or more whitespace characters. -/
def NoWsRun (t : List Char) : Prop := List.Chain' noAdjWs t

/-- First character not among '.', ',', ';', ':'. -/
def headPunctFree (t : List Char) : Bool :=
  match t.head? with
  | some c => !decide (c ∈ punctStripSet)
  | none => true

/-- Last character not among '.', ',', ';', ':'. -/
def lastPunctFree (t : List Char) : Bool :=
  match t.getLast? with
  | some c => !decide (c ∈ punctStripSet)
  | none => true

/-- Executable form of `NoWsRun`. -/
def noWsRunB : List Char → Bool
  | [] => true
  | [_] => true
  | a :: b :: rest => !(isPySpace a && isPySpace b) && noWsRunB (b :: rest)

theorem noWsRunB_iff (t : List Char) : noWsRunB t = true ↔ NoWsRun t := by
  induction t with
  | nil => simp [noWsRunB, NoWsRun]
  | cons a rest ih =>
    cases rest with
    | nil => simp [noWsRunB, NoWsRun]
    | cons b r =>
      rw [NoWsRun, List.chain'_cons, noWsRunB, Bool.and_eq_true, ih]
      constructor
      · intro ⟨h1, h2⟩
        refine ⟨fun ⟨x, y⟩ => ?_, h2⟩
        rw [x, y] at h1
        cases h1
      · intro ⟨h1, h2⟩
        refine ⟨?_, h2⟩
        cases hx : isPySpace a <;> cases hy : isPySpace b <;> try rfl
        exact absurd ⟨hx, hy⟩ h1

/-- The entry-text normalisation invariant of C5. -/
def normOk (t : List Char) : Prop :=
  noWsRunB t = true ∧ headPunctFree t = true ∧ lastPunctFree t = true

instance (t : List Char) : Decidable (normOk t) :=
  inferInstanceAs
    (Decidable (noWsRunB t = true ∧ headPunctFree t = true ∧ lastPunctFree t = true))

theorem collapseWsAux_head_not_ws (s : List Char) :
    ∀ c, (collapseWsAux true s).head? = some c → isPySpace c = false := by
  induction s with
  | nil => intro c h; cases h
  | cons a rest ih =>
    intro c h
    by_cases hw : isPySpace a
    · rw [collapseWsAux, if_pos hw, if_pos rfl] at h
      exact ih c h
    · rw [collapseWsAux, if_neg hw] at h
      cases h
      exact Bool.eq_false_iff.mpr hw

theorem collapseWsAux_chain (s : List Char) : ∀ b, NoWsRun (collapseWsAux b s) := by
  induction s with
  | nil => intro b; exact List.chain'_nil
  | cons a rest ih =>
    intro b
    by_cases hw : isPySpace a
    · cases b with
      | true =>
        rw [NoWsRun, collapseWsAux, if_pos hw, if_pos rfl]
        exact ih true
      | false =>
        rw [NoWsRun, collapseWsAux, if_pos hw, if_neg (by simp), List.chain'_cons']
        refine ⟨?_, ih true⟩
        intro y hy
        intro ⟨_, hy2⟩
        rw [collapseWsAux_head_not_ws rest y hy] at hy2
        cases hy2
    · rw [NoWsRun, collapseWsAux, if_neg hw, List.chain'_cons']
      refine ⟨?_, ih false⟩
      intro y _
      intro ⟨hy1, _⟩
      rw [Bool.eq_false_iff.mpr hw] at hy1
      cases hy1

theorem collapseWs_chain (s : List Char) : NoWsRun (collapseWs s) :=
  collapseWsAux_chain s false

theorem NoWsRun_reverse {t : List Char} (h : NoWsRun t) : NoWsRun t.reverse := by
  rw [NoWsRun, List.chain'_reverse]
  exact List.Chain'.imp (fun a b hab => fun ⟨x, y⟩ => hab ⟨y, x⟩) h

theorem stripChars_NoWsRun (cs : List Char) {t : List Char} (h : NoWsRun t) :
    NoWsRun (stripChars cs t) := by
  unfold stripChars
  exact NoWsRun_reverse
    ((NoWsRun_reverse (h.suffix (List.dropWhile_suffix _))).suffix (List.dropWhile_suffix _))

theorem stripChars_getLast (cs : List Char) (t : List Char) :
    ∀ c, (stripChars cs t).getLast? = some c → c ∉ cs := by
  intro c h
  unfold stripChars at h
  rw [List.getLast?_reverse] at h
  have hd := List.head?_dropWhile_not (fun x => decide (x ∈ cs))
    ((t.dropWhile fun x => decide (x ∈ cs)).reverse)
  rw [h] at hd
  exact of_decide_eq_false hd

theorem stripChars_head (cs : List Char) (t : List Char) :
    ∀ c, (stripChars cs t).head? = some c → c ∉ cs := by
  intro c h
  unfold stripChars at h
  rw [List.head?_reverse] at h
  obtain ⟨u, hu⟩ :=
    List.dropWhile_suffix (l := (t.dropWhile fun x => decide (x ∈ cs)).reverse)
      (p := fun x => decide (x ∈ cs))
  have hlast : (t.dropWhile fun x => decide (x ∈ cs)).reverse.getLast? = some c := by
    rw [← hu, List.getLast?_append, h]
    rfl
  rw [List.getLast?_reverse] at hlast
  have hd := List.head?_dropWhile_not (fun x => decide (x ∈ cs)) t
  rw [hlast] at hd
  exact of_decide_eq_false hd

/-- Texts produced by collapsing whitespace and then stripping a
character set that contains '.', ',', ';', ':' satisfy the entry-text
invariant. -/
theorem normOk_of_collapse_strip (cs : List Char) (s : List Char)
    (hsub : ∀ c ∈ punctStripSet, c ∈ cs) :
    normOk (stripChars cs (collapseWs s)) := by
  refine ⟨(noWsRunB_iff _).mpr (stripChars_NoWsRun cs (collapseWs_chain s)), ?_, ?_⟩
  · unfold headPunctFree
    cases hh : (stripChars cs (collapseWs s)).head? with
    | none => rfl
    | some c =>
      have h1 := stripChars_head cs (collapseWs s) c hh
      simp only [Bool.not_eq_true', decide_eq_false_iff_not]
      exact fun hc => h1 (hsub c hc)
  · unfold lastPunctFree
    cases hh : (stripChars cs (collapseWs s)).getLast? with
    | none => rfl
    | some c =>
      have h1 := stripChars_getLast cs (collapseWs s) c hh
      simp only [Bool.not_eq_true', decide_eq_false_iff_not]
      exact fun hc => h1 (hsub c hc)

theorem stripWs_getLast (t : List Char) :
    ∀ c, (stripWs t).getLast? = some c → isPySpace c = false := by
  intro c h
  unfold stripWs at h
  rw [List.getLast?_reverse] at h
  have hd := List.head?_dropWhile_not isPySpace ((t.dropWhile isPySpace).reverse)
  rw [h] at hd
  exact hd

theorem stripWs_head (t : List Char) :
    ∀ c, (stripWs t).head? = some c → isPySpace c = false := by
  intro c h
  unfold stripWs at h
  rw [List.head?_reverse] at h
  obtain ⟨u, hu⟩ :=
    List.dropWhile_suffix (l := (t.dropWhile isPySpace).reverse) (p := isPySpace)
  have hlast : (t.dropWhile isPySpace).reverse.getLast? = some c := by
    rw [← hu, List.getLast?_append, h]
    rfl
  rw [List.getLast?_reverse] at hlast
  have hd := List.head?_dropWhile_not isPySpace t
  rw [hlast] at hd
  exact hd

theorem dropWhile_eq_self_of_head (p : Char → Bool) (l : List Char)
    (h : ∀ c, l.head? = some c → p c = false) : l.dropWhile p = l := by
  cases l with
  | nil => rfl
  | cons a rest =>
    rw [List.dropWhile_cons, if_neg]
    rw [h a rfl]
    simp

/-- Python str.strip() is idempotent. -/
theorem stripWs_idem (s : List Char) : stripWs (stripWs s) = stripWs s := by
  conv_lhs => rw [stripWs]
  rw [dropWhile_eq_self_of_head isPySpace (stripWs s) (stripWs_head s)]
  rw [dropWhile_eq_self_of_head isPySpace (stripWs s).reverse]
  · rw [List.reverse_reverse]
  · intro c hc
    rw [List.head?_reverse] at hc
    exact stripWs_getLast s c hc

theorem clean_headings_normOk (l : List Entry) (seen : List (List Char)) :
    ∀ e ∈ clean_headings l seen, normOk e.text := by
  induction l generalizing seen with
  | nil => intro e he; cases he
  | cons h rest ih =>
    intro e he
    rw [clean_headings] at he
    by_cases hc : (!(stripChars punctStripSet (collapseWs h.text)).isEmpty &&
        !decide (stripChars punctStripSet (collapseWs h.text) ∈ seen) &&
        (stripChars punctStripSet (collapseWs h.text)).length ≥ 3) = true
    · rw [if_pos hc] at he
      rcases List.mem_cons.mp he with he1 | he2
      · rw [he1]
        exact normOk_of_collapse_strip punctStripSet h.text (fun c hmem => hmem)
      · exact ih _ e he2
    · rw [if_neg hc] at he
      exact ih _ e he

theorem tocLoop_normOk (l : List TocItem) : ∀ e ∈ tocLoop l, normOk e.text := by
  induction l with
  | nil => intro e he; cases he
  | cons item rest ih =>
    intro e he
    rw [tocLoop] at he
    by_cases hc : ((normalizeTocTitle item.title).isEmpty ||
        (normalizeTocTitle item.title).length < 3 ||
        (normalizeTocTitle item.title).length > 150) = true
    · rw [if_pos hc] at he
      exact ih e he
    · rw [if_neg hc] at he
      rcases List.mem_cons.mp he with he1 | he2
      · rw [he1]
        exact normOk_of_collapse_strip tocStripSet item.title
          (fun c hmem => by fin_cases hmem <;> simp [tocStripSet])
      · exact ih e he2

/-- C5 counterexample: PatternStrategy, fed a page whose first line reads
"1.  Alpha beta gamma" (two spaces after the numeral), returns an outline
entry whose text still contains the double space, violating the
normalisation invariant claimed for all three strategies. -/
theorem entrytext_invariant_counterexample :
    (extract_with_regex_fallback ["1.  Alpha beta gamma\n".toList]).outline =
      [{ level := HLevel.h2, text := "1.  Alpha beta gamma".toList, page := 1 }] ∧
    ¬ normOk "1.  Alpha beta gamma".toList := by
  refine ⟨by decide, by decide⟩

/-- C5 amended: the entry-text normalisation invariant (no whitespace
runs, no boundary '.', ',', ';', ':') holds for every outline of
MetadataStrategy and of LayoutStrategy; PatternStrategy entries are only
trimmed of leading/trailing whitespace (str.strip()), so interior runs
and boundary punctuation can survive there. -/
theorem entrytext_invariant_amended :
    (∀ (toc : List TocItem) (o : Outline), extract_with_toc toc = some o →
      ∀ e ∈ o.outline, normOk e.text) ∧
    (∀ (pageCont blockCont : Nat → Bool) (pages : List (List Span)),
      ∀ e ∈ (extract_with_pymupdf pageCont blockCont pages).outline, normOk e.text) ∧
    (∀ pages : List (List Char),
      ∀ e ∈ (extract_with_regex_fallback pages).outline, e.text = stripWs e.text) := by
  refine ⟨?_, ?_, ?_⟩
  · intro toc o ho e he
    have houtline : o.outline = tocLoop toc := by
      unfold extract_with_toc at ho
      by_cases hemp : toc.isEmpty
      · rw [if_pos hemp] at ho
        cases ho
      · rw [if_neg hemp] at ho
        cases htl : tocLoop toc with
        | nil => rw [htl] at ho; cases ho
        | cons first restE =>
          rw [htl] at ho
          cases ho
          rfl
    rw [houtline] at he
    exact tocLoop_normOk toc e he
  · intro pageCont blockCont pages e he
    exact clean_headings_normOk _ [] e he
  · intro pages e he
    unfold extract_with_regex_fallback at he
    have hmem := List.mem_of_mem_take he
    rcases List.mem_append.mp hmem with h1 | h2
    · obtain ⟨x, _, hx⟩ := List.mem_map.mp h1
      rw [← hx]
      exact (stripWs_idem x.2).symm
    · obtain ⟨x, _, hx⟩ := List.mem_map.mp h2
      rw [← hx]
      exact (stripWs_idem x.2).symm

theorem entrytext_invariant_witness :
    normOk "Intro".toList ∧
      ("1. Hello World".toList = stripWs "1. Hello World".toList) := by
  constructor
  · have h := (entrytext_invariant_amended).1 [⟨1, "Intro".toList, 1⟩]
      { title := "Intro".toList,
        outline := [{ level := HLevel.h1, text := "Intro".toList, page := 1 }] }
      (by decide)
      { level := HLevel.h1, text := "Intro".toList, page := 1 }
      (by simp)
    exact h
  · have h := (entrytext_invariant_amended).2.2 ["1. Hello World\n".toList]
      { level := HLevel.h2, text := "1. Hello World".toList, page := 1 }
      (by decide)
    exact h

/-- The per-entry normalisation step of the cleanup pass: `none` when the
normalised text is empty or shorter than 3. -/
def normEntryOpt (e : Entry) : Option Entry :=
  let t := stripChars punctStripSet (collapseWs e.text)
  if !t.isEmpty && t.length ≥ 3 then some { e with text := t } else none

/-- Textbook first-occurrence-wins deduplication by entry text (fuelled
for structural recursion; the list length is always enough fuel). -/
def dedupKeepFirstAux : Nat → List Entry → List Entry
  | 0, _ => []
  | _ + 1, [] => []
  | fuel + 1, e :: rest =>
    e :: dedupKeepFirstAux fuel (rest.filter fun x => decide ¬(x.text = e.text))

def dedupKeepFirst (l : List Entry) : List Entry :=
  dedupKeepFirstAux l.length l

theorem dedupKFAux_congr :
    ∀ (n : Nat) (l : List Entry) (f1 f2 : Nat), l.length ≤ n →
      l.length ≤ f1 → l.length ≤ f2 →
      dedupKeepFirstAux f1 l = dedupKeepFirstAux f2 l := by
  intro n
  induction n with
  | zero =>
    intro l f1 f2 hn _ _
    have : l = [] := List.length_eq_zero.mp (Nat.le_zero.mp hn)
    subst this
    cases f1 <;> cases f2 <;> rfl
  | succ n ih =>
    intro l f1 f2 hn h1 h2
    cases l with
    | nil => cases f1 <;> cases f2 <;> rfl
    | cons e rest =>
      cases f1 with
      | zero => simp at h1
      | succ k1 =>
        cases f2 with
        | zero => simp at h2
        | succ k2 =>
          rw [dedupKeepFirstAux, dedupKeepFirstAux]
          have hf : (rest.filter fun x => decide ¬(x.text = e.text)).length ≤ rest.length :=
            List.length_filter_le _ _
          simp only [List.length_cons] at hn h1 h2
          rw [ih (rest.filter fun x => decide ¬(x.text = e.text)) k1 k2
            (by omega) (by omega) (by omega)]

theorem dedupKeepFirst_cons (e : Entry) (l : List Entry) :
    dedupKeepFirst (e :: l) =
      e :: dedupKeepFirst (l.filter fun x => decide ¬(x.text = e.text)) := by
  rw [dedupKeepFirst, List.length_cons, dedupKeepFirstAux, dedupKeepFirst]
  rw [dedupKFAux_congr (l.length) _ l.length
    (l.filter fun x => decide ¬(x.text = e.text)).length
    (List.length_filter_le _ _) (List.length_filter_le _ _) le_rfl]

theorem clean_headings_eq_dedup (l : List Entry) :
    ∀ seen : List (List Char),
      clean_headings l seen =
        dedupKeepFirst ((l.filterMap normEntryOpt).filter
          fun e => decide ¬(e.text ∈ seen)) := by
  induction l with
  | nil => intro seen; rfl
  | cons h rest ih =>
    intro seen
    rw [clean_headings, List.filterMap_cons]
    by_cases hgood : (!(stripChars punctStripSet (collapseWs h.text)).isEmpty &&
        (stripChars punctStripSet (collapseWs h.text)).length ≥ 3) = true
    · have hnorm : normEntryOpt h =
          some { h with text := stripChars punctStripSet (collapseWs h.text) } := by
        unfold normEntryOpt
        rw [if_pos hgood]
      rw [hnorm]
      by_cases hseen : stripChars punctStripSet (collapseWs h.text) ∈ seen
      · have hcond : (!(stripChars punctStripSet (collapseWs h.text)).isEmpty &&
            !decide (stripChars punctStripSet (collapseWs h.text) ∈ seen) &&
            (stripChars punctStripSet (collapseWs h.text)).length ≥ 3) = false := by
          simp only [Bool.and_eq_true] at hgood
          simp [hseen, hgood.1, hgood.2]
        rw [hcond]
        simp only [Bool.false_eq_true, if_false]
        rw [List.filter_cons_of_neg (by simp [hseen])]
        exact ih seen
      · have hcond : (!(stripChars punctStripSet (collapseWs h.text)).isEmpty &&
            !decide (stripChars punctStripSet (collapseWs h.text) ∈ seen) &&
            (stripChars punctStripSet (collapseWs h.text)).length ≥ 3) = true := by
          simp only [Bool.and_eq_true] at hgood
          simp [hseen, hgood.1, hgood.2]
        rw [hcond]
        simp only [if_true]
        rw [List.filter_cons_of_pos (by simp [hseen]), dedupKeepFirst_cons]
        rw [ih (stripChars punctStripSet (collapseWs h.text) :: seen)]
        congr 1
        apply congrArg dedupKeepFirst
        rw [List.filter_filter]
        apply List.filter_congr
        intro x _
        simp only [List.mem_cons, decide_not]
        cases hx1 : decide (x.text = stripChars punctStripSet (collapseWs h.text)) <;>
          cases hx2 : decide (x.text ∈ seen) <;>
            simp_all
    · have hnorm : normEntryOpt h = none := by
        unfold normEntryOpt
        rw [if_neg hgood]
      have hcond : (!(stripChars punctStripSet (collapseWs h.text)).isEmpty &&
          !decide (stripChars punctStripSet (collapseWs h.text) ∈ seen) &&
          (stripChars punctStripSet (collapseWs h.text)).length ≥ 3) = false := by
        simp only [Bool.and_eq_true, not_and, Bool.not_eq_true] at hgood ⊢
        cases he : (stripChars punctStripSet (collapseWs h.text)).isEmpty <;>
          cases hl : decide ((stripChars punctStripSet (collapseWs h.text)).length ≥ 3) <;>
            simp_all
      rw [hcond]
      simp only [Bool.false_eq_true, if_false]
      rw [hnorm]
      exact ih seen

theorem clean_headings_not_seen (l : List Entry) :
    ∀ seen : List (List Char), ∀ e ∈ clean_headings l seen, e.text ∉ seen := by
  induction l with
  | nil => intro seen e he; cases he
  | cons h rest ih =>
    intro seen e he
    rw [clean_headings] at he
    by_cases hc : (!(stripChars punctStripSet (collapseWs h.text)).isEmpty &&
        !decide (stripChars punctStripSet (collapseWs h.text) ∈ seen) &&
        (stripChars punctStripSet (collapseWs h.text)).length ≥ 3) = true
    · rw [if_pos hc] at he
      rcases List.mem_cons.mp he with he1 | he2
      · rw [he1]
        simp only [Bool.and_eq_true, Bool.not_eq_true', decide_eq_false_iff_not] at hc
        exact hc.1.2
      · intro hmem
        exact ih (stripChars punctStripSet (collapseWs h.text) :: seen) e he2
          (List.mem_cons_of_mem _ hmem)
    · rw [if_neg hc] at he
      exact ih seen e he

theorem clean_headings_pairwise (l : List Entry) :
    ∀ seen : List (List Char),
      (clean_headings l seen).Pairwise (fun a b => a.text ≠ b.text) := by
  induction l with
  | nil => intro seen; exact List.Pairwise.nil
  | cons h rest ih =>
    intro seen
    rw [clean_headings]
    by_cases hc : (!(stripChars punctStripSet (collapseWs h.text)).isEmpty &&
        !decide (stripChars punctStripSet (collapseWs h.text) ∈ seen) &&
        (stripChars punctStripSet (collapseWs h.text)).length ≥ 3) = true
    · rw [if_pos hc]
      refine List.pairwise_cons.mpr ⟨?_, ih _⟩
      intro b hb
      have := clean_headings_not_seen rest
        (stripChars punctStripSet (collapseWs h.text) :: seen) b hb
      intro heq
      exact this (by rw [← heq]; exact List.mem_cons_self _ _)
    · rw [if_neg hc]
      exact ih seen

/-- C6 counterexample: PatternStrategy never deduplicates; two pages
whose first lines carry the same numbered heading produce two outline
entries with identical (already normalised) text. -/
theorem dedup_pattern_counterexample :
    (extract_with_regex_fallback
        ["1. Hello World\n".toList, "1. Hello World\n".toList]).outline =
      [{ level := HLevel.h2, text := "1. Hello World".toList, page := 1 },
       { level := HLevel.h2, text := "1. Hello World".toList, page := 2 }] ∧
    ¬ (((extract_with_regex_fallback
        ["1. Hello World\n".toList, "1. Hello World\n".toList]).outline).Pairwise
          fun a b => a.text ≠ b.text) := by
  have he : (extract_with_regex_fallback
      ["1. Hello World\n".toList, "1. Hello World\n".toList]).outline =
      [{ level := HLevel.h2, text := "1. Hello World".toList, page := 1 },
       { level := HLevel.h2, text := "1. Hello World".toList, page := 2 }] := by decide
  refine ⟨he, ?_⟩
  intro hp
  rw [he] at hp
  exact (List.pairwise_cons.mp hp).1 _ (List.mem_cons_self _ _) rfl

/-- C6 amended: within a single LayoutStrategy extraction no two
returned entries share normalised text, and the cleanup pass is exactly
first-occurrence-wins deduplication of the normalised, length-filtered
sorted headings; PatternStrategy performs no deduplication (see the
counterexample). -/
theorem dedup_invariant_layout (pageCont blockCont : Nat → Bool)
    (pages : List (List Span)) :
    ((extract_with_pymupdf pageCont blockCont pages).outline).Pairwise
      (fun a b => a.text ≠ b.text) ∧
    (extract_with_pymupdf pageCont blockCont pages).outline =
      dedupKeepFirst ((sortBy pageTextLe (collectAux blockCont
        (computeBodyFont (gatherBlocks pageCont pages))
        (gatherBlocks pageCont pages) [] 0)).filterMap normEntryOpt) := by
  constructor
  · exact clean_headings_pairwise _ []
  · have h := clean_headings_eq_dedup (sortBy pageTextLe (collectAux blockCont
      (computeBodyFont (gatherBlocks pageCont pages))
      (gatherBlocks pageCont pages) [] 0)) []
    simpa using h

theorem textLe_total (s t : List Char) : textLe s t = true ∨ textLe t s = true := by
  induction s generalizing t with
  | nil => left; rfl
  | cons a as ih =>
    cases t with
    | nil => right; rfl
    | cons b bs =>
      by_cases hab : a.toNat < b.toNat
      · left
        rw [textLe, if_pos hab]
      · by_cases hba : b.toNat < a.toNat
        · right
          rw [textLe, if_pos hba]
        · rcases ih bs with h | h
          · left
            rw [textLe, if_neg hab, if_neg hba]
            exact h
          · right
            rw [textLe, if_neg hba, if_neg hab]
            exact h

theorem pageTextLe_total (a b : Entry) : pageTextLe a b = true ∨ pageTextLe b a = true := by
  unfold pageTextLe
  by_cases hlt : a.page < b.page
  · left; simp [hlt]
  · by_cases hgt : b.page < a.page
    · right; simp [hgt]
    · have heq : a.page = b.page := le_antisymm (not_lt.mp hgt) (not_lt.mp hlt)
      rcases textLe_total a.text b.text with h | h
      · left; simp [heq, h]
      · right; simp [heq, h]

theorem chain'_insSorted (le : Entry → Entry → Bool)
    (htot : ∀ a b, le a b = true ∨ le b a = true) (x : Entry) :
    ∀ l : List Entry, List.Chain' (fun a b => le a b = true) l →
      List.Chain' (fun a b => le a b = true) (insSorted le x l) := by
  intro l
  induction l with
  | nil => intro _; exact List.chain'_singleton x
  | cons y ys ih =>
    intro h
    rw [insSorted]
    by_cases hxy : le x y = true
    · rw [if_pos hxy]
      exact List.Chain'.cons hxy h
    · rw [if_neg hxy]
      have hyx : le y x = true := (htot x y).resolve_left hxy
      have htail := (List.chain'_cons'.mp h).2
      have hins := ih htail
      refine List.chain'_cons'.mpr ⟨?_, hins⟩
      intro z hz
      cases ys with
      | nil =>
        rw [insSorted] at hz
        cases hz
        exact hyx
      | cons w ws =>
        rw [insSorted] at hz
        by_cases hxw : le x w = true
        · rw [if_pos hxw] at hz
          cases hz
          exact hyx
        · rw [if_neg hxw] at hz
          cases hz
          exact (List.chain'_cons.mp h).1

theorem chain'_sortBy (le : Entry → Entry → Bool)
    (htot : ∀ a b, le a b = true ∨ le b a = true) (l : List Entry) :
    List.Chain' (fun a b => le a b = true) (sortBy le l) := by
  induction l with
  | nil => exact List.chain'_nil
  | cons x xs ih => exact chain'_insSorted le htot x (sortBy le xs) ih

theorem collectAux_not_seen (blockCont : Nat → Bool) (bf : ℚ) (blocks : List Block) :
    ∀ (seen : List (List Char)) (k : Nat) (e : Entry),
      e ∈ collectAux blockCont bf blocks seen k → e.text ∉ seen := by
  induction blocks with
  | nil => intro seen k e he; cases he
  | cons b rest ih =>
    intro seen k e he
    rw [collectAux] at he
    by_cases hskip : (decide (stripWs b.text ∈ seen) || (stripWs b.text).length < 3 ||
        (stripWs b.text).length > 150 || is_artifact (stripWs b.text)) = true
    · rw [if_pos hskip] at he
      simp only [List.nil_append] at he
      split at he
      · exact ih seen (k + 1) e he
      · cases he
    · rw [if_neg hskip] at he
      cases hml : heading_level (stripWs b.text) b.font_size bf b.font_flags with
      | none =>
        rw [hml] at he
        simp only [List.nil_append] at he
        split at he
        · exact ih seen (k + 1) e he
        · cases he
      | some lvl =>
        rw [hml] at he
        simp only [List.singleton_append] at he
        rcases List.mem_cons.mp he with he1 | he2
        · rw [he1]
          simp only [Bool.or_eq_true, decide_eq_true_eq, not_or, Bool.not_eq_true] at hskip
          exact hskip.1.1.1
        · split at he2
          · have := ih (stripWs b.text :: seen) (k + 1) e he2
            exact fun hmem => this (List.mem_cons_of_mem _ hmem)
          · cases he2

theorem collectAux_pairwise (blockCont : Nat → Bool) (bf : ℚ) (blocks : List Block) :
    ∀ (seen : List (List Char)) (k : Nat),
      (collectAux blockCont bf blocks seen k).Pairwise fun a b => a.text ≠ b.text := by
  induction blocks with
  | nil => intro seen k; exact List.Pairwise.nil
  | cons b rest ih =>
    intro seen k
    rw [collectAux]
    by_cases hskip : (decide (stripWs b.text ∈ seen) || (stripWs b.text).length < 3 ||
        (stripWs b.text).length > 150 || is_artifact (stripWs b.text)) = true
    · rw [if_pos hskip]
      simp only [List.nil_append]
      split
      · exact ih seen (k + 1)
      · exact List.Pairwise.nil
    · rw [if_neg hskip]
      cases hml : heading_level (stripWs b.text) b.font_size bf b.font_flags with
      | none =>
        simp only [List.nil_append]
        split
        · exact ih seen (k + 1)
        · exact List.Pairwise.nil
      | some lvl =>
        simp only [List.singleton_append]
        refine List.pairwise_cons.mpr ⟨?_, ?_⟩
        · intro e2 he2
          split at he2
          · have := collectAux_not_seen blockCont bf rest (stripWs b.text :: seen)
              (k + 1) e2 he2
            intro heq
            exact this (by rw [← heq]; exact List.mem_cons_self _ _)
          · cases he2
        · split
          · exact ih _ (k + 1)
          · exact List.Pairwise.nil

/-- The demonstration fragments of C9: two oversized headings on page 1,
"Zebra Heading" physically first, "Alpha Heading" second. -/
def demoBlocks : List Block :=
  [{ text := "Zebra Heading".toList, page := 1, font_size := 20, font_flags := 0, y := 100 },
   { text := "Alpha Heading".toList, page := 1, font_size := 20, font_flags := 0, y := 200 }]

unseal Rat.sub in
theorem demoBlocks_eval :
    (extract_headings_multilayer (fun _ => true) demoBlocks 12).map (·.text) =
      ["Alpha Heading".toList, "Zebra Heading".toList] := by
  decide

/-- C9: within one LayoutStrategy run the accepted headings carry
pairwise-distinct raw texts (first acceptance wins), the sort step
orders them in non-decreasing lexicographic (page, text) order — within
a page alphabetically by text, as the demo shows, not by reading order —
and the final output is the cleanup pass applied to that sorted list. -/
theorem layout_ordering (pageCont blockCont : Nat → Bool) (pages : List (List Span)) :
    ((collectAux blockCont (computeBodyFont (gatherBlocks pageCont pages))
        (gatherBlocks pageCont pages) [] 0).Pairwise fun a b => a.text ≠ b.text) ∧
    List.Chain' (fun a b => pageTextLe a b = true)
      (sortBy pageTextLe (collectAux blockCont
        (computeBodyFont (gatherBlocks pageCont pages))
        (gatherBlocks pageCont pages) [] 0)) ∧
    (extract_with_pymupdf pageCont blockCont pages).outline =
      clean_headings (sortBy pageTextLe (collectAux blockCont
        (computeBodyFont (gatherBlocks pageCont pages))
        (gatherBlocks pageCont pages) [] 0)) [] ∧
    (extract_headings_multilayer (fun _ => true) demoBlocks 12).map (·.text) =
      ["Alpha Heading".toList, "Zebra Heading".toList] := by
  refine ⟨collectAux_pairwise _ _ _ [] 0,
    chain'_sortBy pageTextLe pageTextLe_total _, rfl, demoBlocks_eval⟩

theorem drop_append_le {α : Type} (l₁ l₂ : List α) (n : Nat) (h : n ≤ l₁.length) :
    (l₁ ++ l₂).drop n = l₁.drop n ++ l₂ := by
  induction l₁ generalizing n with
  | nil =>
    have h0 : n = 0 := Nat.le_zero.mp h
    subst h0
    rfl
  | cons a rest ih =>
    cases n with
    | zero => rfl
    | succ m =>
      simp only [List.cons_append, List.drop_succ_cons]
      exact ih m (Nat.le_of_succ_le_succ h)

theorem suffix_of_suffix_length_lt {α : Type} {r s : List α} (h : r <:+ s)
    (hlen : r.length < s.length) : ∀ c rest, s = c :: rest → r <:+ rest := by
  intro c rest hs
  subst hs
  rcases List.suffix_cons_iff.mp h with h1 | h1
  · rw [h1] at hlen
    simp at hlen
  · exact h1

theorem litPairs_dec (ps : List (Char × Char)) (s : List Char) :
    ∀ k r, litPairs ps s = some (k, r) → s = k ++ r ∧ k.length = ps.length := by
  induction ps generalizing s with
  | nil =>
    intro k r h
    rw [litPairs] at h
    cases h
    exact ⟨rfl, rfl⟩
  | cons p ps' ih =>
    intro k r h
    cases s with
    | nil => cases h
    | cons c rest =>
      rw [litPairs] at h
      by_cases hc : (c = p.1 || c = p.2) = true
      · rw [if_pos hc] at h
        cases hrec : litPairs ps' rest with
        | none => rw [hrec] at h; cases h
        | some x =>
          rw [hrec] at h
          cases h
          obtain ⟨h1, h2⟩ := ih rest x.1 x.2 hrec
          constructor
          · rw [List.cons_append, ← h1]
          · simp [h2]
      · rw [if_neg hc] at h
        cases h

theorem tryNum_suffix (s : List Char) :
    ∀ t r, tryNum s = some (t, r) → r <:+ s := by
  intro t r h
  unfold tryNum at h
  split at h
  · rename_i r2 heq
    by_cases hd1 : (s.takeWhile Char.isDigit).isEmpty = true
    · rw [if_pos hd1] at h
      cases h
    · rw [if_neg hd1] at h
      by_cases hw : ((r2.dropWhile Char.isDigit).takeWhile isPySpace).isEmpty = true
      · rw [if_pos hw] at h
        cases h
      · rw [if_neg hw] at h
        split at h
        · rename_i c4 r5 heq4
          by_cases hup : isUpperAZ c4 = true
          · rw [if_pos hup] at h
            by_cases hlen : 5 ≤ ((r5.takeWhile fun x => decide (x ≠ '\n')).take 80).length
            · rw [if_pos hlen] at h
              cases h
              have hsuf : r5 <:+ s := by
                calc r5 <:+ c4 :: r5 := List.suffix_cons c4 r5
                  _ = (r2.dropWhile Char.isDigit).dropWhile isPySpace := heq4.symm
                  _ <:+ r2.dropWhile Char.isDigit := List.dropWhile_suffix _
                  _ <:+ r2 := List.dropWhile_suffix _
                  _ <:+ '.' :: r2 := List.suffix_cons '.' r2
                  _ = s.dropWhile Char.isDigit := heq.symm
                  _ <:+ s := List.dropWhile_suffix _
              exact (List.drop_suffix _ _).trans hsuf
            · rw [if_neg hlen] at h
              cases h
          · rw [if_neg hup] at h
            cases h
        · cases h
  · rename_i hne
    by_cases hd1 : (s.takeWhile Char.isDigit).isEmpty = true
    · rw [if_pos hd1] at h
      cases h
    · rw [if_neg hd1] at h
      cases h

theorem tryChap_suffix (s : List Char) :
    ∀ t r, tryChap s = some (t, r) → r <:+ s := by
  intro t r h
  unfold tryChap at h
  cases horelse : ((litPairs ciChapter s).orElse fun _ => litPairs ciSection s) with
  | none =>
    rw [horelse] at h
    cases h
  | some x =>
    rw [horelse] at h
    obtain ⟨kw, r1⟩ := x
    dsimp only at h
    by_cases hw : (r1.takeWhile isPySpace).isEmpty = true
    · rw [if_pos hw] at h
      cases h
    · rw [if_neg hw] at h
      by_cases hd : (((r1.dropWhile isPySpace).takeWhile Char.isDigit)).isEmpty = true
      · rw [if_pos hd] at h
        cases h
      · rw [if_neg hd] at h
        cases h
        have hr1 : r1 <:+ s := by
          cases hch : litPairs ciChapter s with
          | some y =>
            rw [hch] at horelse
            simp only [Option.orElse] at horelse
            cases horelse
            exact (litPairs_dec ciChapter s kw r1 hch).1 ▸ List.suffix_append kw r1
          | none =>
            rw [hch] at horelse
            simp only [Option.orElse] at horelse
            exact (litPairs_dec ciSection s kw r1 horelse).1 ▸ List.suffix_append kw r1
        calc ((r1.dropWhile isPySpace).dropWhile Char.isDigit).drop _
            <:+ (r1.dropWhile isPySpace).dropWhile Char.isDigit := List.drop_suffix _ _
          _ <:+ r1.dropWhile isPySpace := List.dropWhile_suffix _
          _ <:+ r1 := List.dropWhile_suffix _
          _ <:+ s := hr1

theorem tryTitle_suffix (s : List Char) :
    ∀ t r, tryTitle s = some (t, r) → r <:+ s := by
  intro t r h
  unfold tryTitle at h
  split at h
  · rename_i c r0
    by_cases hup : isUpperAZ c = true
    · rw [if_pos hup] at h
      by_cases hlen : 10 ≤ ((r0.takeWhile fun x => decide (x ≠ '\n')).take 100).length
      · rw [if_pos hlen] at h
        cases h
        exact (List.drop_suffix _ _).trans (List.suffix_cons c r0)
      · rw [if_neg hlen] at h
        cases h
    · rw [if_neg hup] at h
      cases h
  · cases h

theorem findOnLine_suffix (tryH : List Char → Option (List Char × List Char))
    (hsuf : ∀ s t r, tryH s = some (t, r) → r <:+ s) (s : List Char) :
    ∀ t r, findOnLine tryH s = some (t, r) → r <:+ s := by
  induction s with
  | nil => intro t r h; cases h
  | cons c rest ih =>
    intro t r h
    rw [findOnLine] at h
    cases htry : tryH (c :: rest) with
    | some x =>
      obtain ⟨xt, xr⟩ := x
      rw [htry] at h
      cases h
      exact hsuf _ _ _ htry
    | none =>
      rw [htry] at h
      by_cases hc : c = '\n'
      · rw [if_pos hc] at h
        cases h
      · rw [if_neg hc] at h
        exact (ih t r h).trans (List.suffix_cons c rest)

theorem parseMarker_dec (ps : List (Char × Char)) (s : List Char) :
    ∀ n r, parseMarker ps s = some (n, r) → r <:+ s ∧ r.length < s.length := by
  intro n r h
  unfold parseMarker at h
  cases hlit : litPairs ps s with
  | none =>
    rw [hlit] at h
    cases h
  | some x =>
    obtain ⟨k, r1⟩ := x
    rw [hlit] at h
    dsimp only at h
    by_cases hd : (r1.takeWhile Char.isDigit).isEmpty = true
    · rw [if_pos hd] at h
      cases h
    · rw [if_neg hd] at h
      cases hdrop : r1.dropWhile Char.isDigit with
      | nil =>
        rw [hdrop] at h
        cases h
      | cons c r2 =>
        rw [hdrop] at h
        by_cases hc : c = ']'
        · subst hc
          cases h
          obtain ⟨hs, _⟩ := litPairs_dec ps s k r1 hlit
          have hr1 : r1 = r1.takeWhile Char.isDigit ++ (']' :: r) := by
            rw [← hdrop, List.takeWhile_append_dropWhile]
          constructor
          · rw [hs, hr1]
            calc r <:+ ']' :: r := List.suffix_cons _ _
              _ <:+ r1.takeWhile Char.isDigit ++ (']' :: r) := List.suffix_append _ _
              _ <:+ k ++ (r1.takeWhile Char.isDigit ++ (']' :: r)) := List.suffix_append _ _
          · rw [hs, hr1]
            simp only [List.length_append, List.length_cons]
            omega
        · exfalso
          revert h
          split
          · rename_i heq2
            cases heq2
            exact fun _ => hc rfl
          · exact fun h => by cases h

theorem matchNum_dec (s : List Char) :
    ∀ a r, matchNum s = some (a, r) → r <:+ s ∧ r.length < s.length := by
  intro a r h
  unfold matchNum at h
  cases hpm : parseMarker markerCS s with
  | none => rw [hpm] at h; cases h
  | some x =>
    obtain ⟨n, r1⟩ := x
    rw [hpm] at h
    dsimp only at h
    cases hfol : findOnLine tryNum r1 with
    | none => rw [hfol] at h; cases h
    | some y =>
      obtain ⟨t, rest⟩ := y
      rw [hfol] at h
      cases h
      obtain ⟨hsuf1, hlen1⟩ := parseMarker_dec markerCS s n r1 hpm
      have hsuf2 := findOnLine_suffix tryNum tryNum_suffix r1 t r hfol
      exact ⟨hsuf2.trans hsuf1, lt_of_le_of_lt hsuf2.length_le hlen1⟩

theorem matchChap_dec (s : List Char) :
    ∀ a r, matchChap s = some (a, r) → r <:+ s ∧ r.length < s.length := by
  intro a r h
  unfold matchChap at h
  cases hpm : parseMarker markerCI s with
  | none => rw [hpm] at h; cases h
  | some x =>
    obtain ⟨n, r1⟩ := x
    rw [hpm] at h
    dsimp only at h
    cases hfol : findOnLine tryChap r1 with
    | none => rw [hfol] at h; cases h
    | some y =>
      obtain ⟨t, rest⟩ := y
      rw [hfol] at h
      cases h
      obtain ⟨hsuf1, hlen1⟩ := parseMarker_dec markerCI s n r1 hpm
      have hsuf2 := findOnLine_suffix tryChap tryChap_suffix r1 t r hfol
      exact ⟨hsuf2.trans hsuf1, lt_of_le_of_lt hsuf2.length_le hlen1⟩

theorem scanAux_skip (m : List Char → Option ((Nat × List Char) × List Char)) :
    ∀ (s : List Char) (k : Nat), scanAux m k s = scanAux m 0 (s.drop k) := by
  intro s
  induction s with
  | nil => intro k; cases k <;> rfl
  | cons c rest ih =>
    intro k
    cases k with
    | zero => rfl
    | succ j =>
      rw [scanAux, List.drop_succ_cons]
      exact ih j

theorem scan_cons_match (m : List Char → Option ((Nat × List Char) × List Char))
    (hm : ∀ s a r, m s = some (a, r) → r <:+ s ∧ r.length < s.length)
    (c : Char) (rest : List Char) (a : Nat × List Char) (r : List Char)
    (h : m (c :: rest) = some (a, r)) :
    scanAux m 0 (c :: rest) = a :: scanAux m 0 r := by
  rw [scanAux, h]
  dsimp only
  obtain ⟨hsuf, hlen⟩ := hm (c :: rest) a r h
  have hr : r <:+ rest := suffix_of_suffix_length_lt hsuf hlen c rest rfl
  obtain ⟨u, hu⟩ := hr
  have hdrop : rest.drop (rest.length - r.length) = r := by
    rw [← hu]
    have hul : u.length = (u ++ r).length - r.length := by
      simp
    rw [← hul]
    exact List.drop_left u r
  rw [scanAux_skip, hdrop]

theorem scan_append_none (m : List Char → Option ((Nat × List Char) × List Char))
    (w t : List Char) (h : ∀ k, k < w.length → m (w.drop k ++ t) = none) :
    scanAux m 0 (w ++ t) = scanAux m 0 t := by
  induction w with
  | nil => rfl
  | cons c w' ih =>
    have h0 := h 0 (by simp)
    rw [List.drop_zero, List.cons_append] at h0
    rw [List.cons_append, scanAux, h0]
    exact ih fun k hk => h (k + 1) (by simpa using Nat.succ_lt_succ hk)

theorem digitVal_digitChar (n : Nat) (h : n < 10) : digitVal (digitChar n) = n := by
  interval_cases n <;> decide

theorem digitChar_isDigit (n : Nat) (h : n < 10) : (digitChar n).isDigit = true := by
  interval_cases n <;> decide

theorem natDigitsAux_ne_nil (fuel n : Nat) (h : n < fuel) : natDigitsAux fuel n ≠ [] := by
  cases fuel with
  | zero => omega
  | succ f =>
    rw [natDigitsAux]
    by_cases h10 : n < 10
    · rw [if_pos h10]
      simp
    · rw [if_neg h10]
      simp

theorem natDigitsAux_digits (fuel : Nat) :
    ∀ n, n < fuel → ∀ c ∈ natDigitsAux fuel n, c.isDigit = true := by
  induction fuel with
  | zero => intro n h; omega
  | succ f ih =>
    intro n h c hc
    rw [natDigitsAux] at hc
    by_cases h10 : n < 10
    · rw [if_pos h10] at hc
      rw [List.mem_singleton.mp hc]
      exact digitChar_isDigit n h10
    · rw [if_neg h10] at hc
      rcases List.mem_append.mp hc with h1 | h1
      · have hdiv : n / 10 < f := by omega
        exact ih (n / 10) hdiv c h1
      · rw [List.mem_singleton.mp h1]
        exact digitChar_isDigit (n % 10) (Nat.mod_lt n (by omega))

theorem natDigits_digits (n : Nat) : ∀ c ∈ natDigits n, c.isDigit = true :=
  natDigitsAux_digits (n + 1) n (Nat.lt_succ_self n)

theorem natDigits_ne_nil (n : Nat) : natDigits n ≠ [] :=
  natDigitsAux_ne_nil (n + 1) n (Nat.lt_succ_self n)

theorem parseDigitsAux_append (A : List Char) :
    ∀ (t : List Char) (acc : Nat), (∀ c ∈ A, c.isDigit = true) →
      parseDigitsAux acc (A ++ t) =
        parseDigitsAux (A.foldl (fun a c => a * 10 + digitVal c) acc) t := by
  induction A with
  | nil => intro t acc _; rfl
  | cons c A' ih =>
    intro t acc hA
    rw [List.cons_append, parseDigitsAux, if_pos (hA c (List.mem_cons_self c A'))]
    rw [ih t (acc * 10 + digitVal c) (fun x hx => hA x (List.mem_cons_of_mem c hx))]
    rfl

theorem natDigitsAux_foldl (fuel : Nat) :
    ∀ n acc, n < fuel →
      (natDigitsAux fuel n).foldl (fun a c => a * 10 + digitVal c) acc =
        acc * 10 ^ (natDigitsAux fuel n).length + n := by
  induction fuel with
  | zero => intro n acc h; omega
  | succ f ih =>
    intro n acc h
    rw [natDigitsAux]
    by_cases h10 : n < 10
    · rw [if_pos h10]
      simp only [List.foldl_cons, List.foldl_nil, List.length_singleton, pow_one]
      rw [digitVal_digitChar n h10]
    · rw [if_neg h10]
      rw [List.foldl_append]
      have hdiv : n / 10 < f := by omega
      rw [ih (n / 10) acc hdiv]
      simp only [List.foldl_cons, List.foldl_nil, List.length_append, List.length_singleton]
      rw [digitVal_digitChar (n % 10) (Nat.mod_lt n (by omega))]
      rw [pow_succ]
      have : n = 10 * (n / 10) + n % 10 := (Nat.div_add_mod n 10).symm
      ring_nf
      omega

theorem parseDigits_natDigits (n : Nat) : parseDigitsAux 0 (natDigits n) = (n, []) := by
  have h := parseDigitsAux_append (natDigits n) [] 0 (natDigits_digits n)
  rw [List.append_nil] at h
  rw [h]
  rw [show natDigits n = natDigitsAux (n + 1) n from rfl]
  rw [natDigitsAux_foldl (n + 1) n 0 (Nat.lt_succ_self n)]
  simp [parseDigitsAux]

theorem litPairs_marker_cs (i : Nat) (rest : List Char) :
    litPairs markerCS (pageMarker i ++ rest) =
      some ("[PAGE_".toList, natDigits i ++ (']' :: rest)) := by
  show litPairs markerCS
      ('[' :: 'P' :: 'A' :: 'G' :: 'E' :: '_' :: ((natDigits i ++ [']']) ++ rest)) = _
  rw [List.append_assoc]
  rfl

theorem litPairs_marker_ci (i : Nat) (rest : List Char) :
    litPairs markerCI (pageMarker i ++ rest) =
      some ("[PAGE_".toList, natDigits i ++ (']' :: rest)) := by
  show litPairs markerCI
      ('[' :: 'P' :: 'A' :: 'G' :: 'E' :: '_' :: ((natDigits i ++ [']']) ++ rest)) = _
  rw [List.append_assoc]
  rfl

theorem parseMarker_marker (ps : List (Char × Char)) (i : Nat) (rest : List Char)
    (hlit : litPairs ps (pageMarker i ++ rest) =
      some ("[PAGE_".toList, natDigits i ++ (']' :: rest))) :
    parseMarker ps (pageMarker i ++ rest) = some (i, rest) := by
  unfold parseMarker
  rw [hlit]
  dsimp only
  have htake : (natDigits i ++ (']' :: rest)).takeWhile Char.isDigit = natDigits i := by
    rw [List.takeWhile_append_of_pos (natDigits_digits i)]
    simp [List.takeWhile_cons]
  have hdrop : (natDigits i ++ (']' :: rest)).dropWhile Char.isDigit = ']' :: rest := by
    rw [List.dropWhile_append_of_pos (natDigits_digits i)]
    simp [List.dropWhile_cons]
  rw [htake, hdrop]
  rw [if_neg (by simp [natDigits_ne_nil i])]
  rw [show parseDigitsAux 0 (natDigits i) = (i, []) from parseDigits_natDigits i]
  rfl

theorem litPairs_csP_eq (l : List Char) :
    ∀ s k r, litPairs (csP l) s = some (k, r) → k = l ∧ s = l ++ r := by
  induction l with
  | nil =>
    intro s k r h
    rw [csP, List.map_nil, litPairs] at h
    cases h
    exact ⟨rfl, rfl⟩
  | cons c l' ih =>
    intro s k r h
    cases s with
    | nil => cases h
    | cons a rest =>
      rw [csP, List.map_cons, litPairs] at h
      by_cases ha : (a = c || a = c) = true
      · rw [if_pos ha] at h
        cases hrec : litPairs (csP l') rest with
        | none =>
          rw [show (l'.map fun c => (c, c)) = csP l' from rfl, hrec] at h
          cases h
        | some x =>
          rw [show (l'.map fun c => (c, c)) = csP l' from rfl, hrec] at h
          cases h
          obtain ⟨h1, h2⟩ := ih rest x.1 x.2 hrec
          have hac : a = c := by
            rcases Bool.or_eq_true .. |>.mp ha with h | h
            · exact of_decide_eq_true h
            · exact of_decide_eq_true h
          subst hac
          exact ⟨by rw [h1], by rw [h2, List.cons_append]⟩
      · rw [if_neg ha] at h
        cases h

theorem marker_cs_to_ci (s : List Char) (h : (litPairs markerCS s).isSome = true) :
    (litPairs markerCI s).isSome = true := by
  cases hcs : litPairs markerCS s with
  | none => rw [hcs] at h; cases h
  | some x =>
    obtain ⟨k, r⟩ := x
    obtain ⟨hk, hs⟩ := litPairs_csP_eq "[PAGE_".toList s k r hcs
    rw [hs]
    rfl

theorem marker1_cs_to_ci (s : List Char)
    (h : (litPairs (csP "[PAGE_1]".toList) s).isSome = true) :
    (litPairs markerCI s).isSome = true := by
  cases hcs : litPairs (csP "[PAGE_1]".toList) s with
  | none => rw [hcs] at h; cases h
  | some x =>
    obtain ⟨k, r⟩ := x
    obtain ⟨hk, hs⟩ := litPairs_csP_eq "[PAGE_1]".toList s k r hcs
    rw [hs]
    rfl

theorem litPairs_split (b : List Char) :
    ∀ (ps : List (Char × Char)) (t : List Char),
      (litPairs ps (b ++ t)).isSome = true →
      (litPairs ps b).isSome = true ∨
      (b.length < ps.length ∧ ∃ pr, ps[b.length]? = some pr ∧
        ∃ c t', t = c :: t' ∧ (c = pr.1 ∨ c = pr.2)) := by
  induction b with
  | nil =>
    intro ps t h
    cases ps with
    | nil => left; rfl
    | cons pr ps' =>
      right
      refine ⟨by simp, pr, by simp, ?_⟩
      rw [List.nil_append] at h
      cases t with
      | nil => rw [litPairs] at h; cases h
      | cons c t' =>
        rw [litPairs] at h
        by_cases hc : (c = pr.1 || c = pr.2) = true
        · refine ⟨c, t', rfl, ?_⟩
          rcases Bool.or_eq_true .. |>.mp hc with h1 | h1
          · left; exact of_decide_eq_true h1
          · right; exact of_decide_eq_true h1
        · rw [if_neg hc] at h
          cases h
  | cons x b' ih =>
    intro ps t h
    cases ps with
    | nil => left; rfl
    | cons pr ps' =>
      rw [List.cons_append, litPairs] at h
      by_cases hx : (x = pr.1 || x = pr.2) = true
      · rw [if_pos hx] at h
        have h' : (litPairs ps' (b' ++ t)).isSome = true := by
          cases hlp : litPairs ps' (b' ++ t) with
          | none => rw [hlp] at h; cases h
          | some y => rfl
        rcases ih ps' t h' with h1 | ⟨h1, pr', h2, h3⟩
        · left
          rw [litPairs, if_pos hx]
          cases hlp : litPairs ps' b' with
          | none => rw [hlp] at h1; cases h1
          | some y => rfl
        · right
          exact ⟨by simpa using Nat.succ_lt_succ h1, pr', by simpa using h2, h3⟩
      · rw [if_neg hx] at h
        cases h

theorem hasSubP_of_suffix (ps : List (Char × Char)) (w : List Char) :
    ∀ b, b <:+ w → (litPairs ps b).isSome = true → hasSubP ps w = true := by
  induction w with
  | nil =>
    intro b hb hsome
    rw [List.suffix_nil.mp hb] at hsome
    rw [hasSubP]
    exact hsome
  | cons c w' ih =>
    intro b hb hsome
    rcases List.suffix_cons_iff.mp hb with h1 | h1
    · subst h1
      simp [hasSubP, hsome]
    · simp [hasSubP, ih b h1 hsome]

/-- Inside a segment with no case-insensitive occurrence of "[PAGE_",
followed by text that is empty or starts with '[', no position (even a
straddling one) begins a case-insensitive marker literal. -/
theorem no_marker_in_segment (w t : List Char)
    (hclean : hasSubP markerCI w = false)
    (ht : t = [] ∨ ∃ t', t = '[' :: t') :
    ∀ b, b <:+ w → b ≠ [] → (litPairs markerCI (b ++ t)).isSome = false := by
  intro b hb hbne
  by_contra hcontra
  have hsome : (litPairs markerCI (b ++ t)).isSome = true := by
    cases h : (litPairs markerCI (b ++ t)).isSome
    · exact absurd h hcontra
    · rfl
  rcases litPairs_split b markerCI t hsome with h1 | ⟨h1, pr, h2, c, t', h3, h4⟩
  · rw [hasSubP_of_suffix markerCI w b hb h1] at hclean
    cases hclean
  · have hc : c = '[' := by
      rcases ht with ht0 | ⟨t'', ht0⟩
      · rw [ht0] at h3
        cases h3
      · rw [ht0] at h3
        cases h3
        rfl
    subst hc
    have hlen : 1 ≤ b.length := by
      cases b with
      | nil => exact absurd rfl hbne
      | cons _ _ => simp
    have hlen6 : b.length < 6 := by
      simpa [markerCI] using h1
    interval_cases hbl : b.length <;>
      simp [markerCI] at h2 <;> rw [← h2] at h4 <;> simp at h4

theorem matchNum_none_of_no_marker (s : List Char)
    (h : (litPairs markerCI s).isSome = false) : matchNum s = none := by
  unfold matchNum
  cases hpm : parseMarker markerCS s with
  | none => rfl
  | some x =>
    exfalso
    unfold parseMarker at hpm
    cases hcs : litPairs markerCS s with
    | none => rw [hcs] at hpm; cases hpm
    | some y =>
      have := marker_cs_to_ci s (by rw [hcs]; rfl)
      rw [this] at h
      cases h

theorem matchChap_none_of_no_marker (s : List Char)
    (h : (litPairs markerCI s).isSome = false) : matchChap s = none := by
  unfold matchChap
  cases hpm : parseMarker markerCI s with
  | none => rfl
  | some x =>
    exfalso
    unfold parseMarker at hpm
    cases hci : litPairs markerCI s with
    | none => rw [hci] at hpm; cases hpm
    | some y =>
      rw [hci] at h
      cases h

theorem titleAt_none_of_no_marker (s : List Char)
    (h : (litPairs markerCI s).isSome = false) : titleAt s = none := by
  unfold titleAt
  cases hcs : litPairs (csP "[PAGE_1]".toList) s with
  | none => rfl
  | some x =>
    exfalso
    have := marker1_cs_to_ci s (by rw [hcs]; rfl)
    rw [this] at h
    cases h

/-- Every character of the marker after the leading '[' is a letter,
an underscore, a digit or ']', never '['. -/
theorem pageMarker_tail_no_bracket (n : Nat) :
    ∀ c, c ∈ 'P' :: 'A' :: 'G' :: 'E' :: '_' :: (natDigits n ++ [']']) → c ≠ '[' := by
  intro c hc hbr
  subst hbr
  simp only [List.mem_cons, List.mem_append, List.mem_singleton] at hc
  rcases hc with h | h | h | h | h | h
  · exact absurd h (by decide)
  · exact absurd h (by decide)
  · exact absurd h (by decide)
  · exact absurd h (by decide)
  · exact absurd h (by decide)
  · rcases h with h | h
    · exact absurd (natDigits_digits n '[' h) (by decide)
    · exact absurd h (by decide)

theorem litPairs_markerCI_head (c : Char) (r : List Char) (hc : c ≠ '[') :
    (litPairs markerCI (c :: r)).isSome = false := by
  rw [show markerCI = ('[', '[') :: markerCI.tail from rfl, litPairs]
  rw [if_neg]
  · rfl
  · simp [hc]

/-- Tail text shape at a segment boundary: empty, or the '[' of the next
marker. -/
def BoundaryOk (t : List Char) : Prop := t = [] ∨ ∃ t', t = '[' :: t'

/-- A span whose predicate rejects '\n' cannot cross the end of a
segment that terminates in '\n'. -/
theorem span_confined (p : Char → Bool) (hp : p '\n' = false) (b b' t : List Char)
    (hb : b = b' ++ ['\n']) :
    (b ++ t).takeWhile p = b.takeWhile p ∧
      (b ++ t).dropWhile p = b.dropWhile p ++ t ∧ b.dropWhile p ≠ [] := by
  have hnl : ¬ ∀ x ∈ b, p x = true := by
    intro hall
    have := hall '\n' (by rw [hb]; simp)
    rw [hp] at this
    cases this
  have hdrop_ne : b.dropWhile p ≠ [] := fun hnil =>
    hnl (List.dropWhile_eq_nil_iff.mp hnil)
  have htake_ne : (b.takeWhile p).length ≠ b.length := by
    intro hlen
    apply hnl
    intro x hx
    have hts : b.takeWhile p = b := by
      have hpref := List.takeWhile_prefix (l := b) (p := p)
      obtain ⟨u, hu⟩ := hpref
      have hu0 : u = [] := by
        have := congrArg List.length hu
        simp only [List.length_append] at this
        rw [hlen] at this
        have : u.length = 0 := by omega
        exact List.length_eq_zero.mp this
      rw [hu0, List.append_nil] at hu
      exact hu
    rw [← hts] at hx
    exact List.mem_takeWhile_imp hx
  refine ⟨?_, ?_, hdrop_ne⟩
  · rw [List.takeWhile_append]
    rw [if_neg htake_ne]
  · rw [List.dropWhile_append]
    rw [if_neg (by simpa using hdrop_ne)]

/-- A non-empty suffix of a segment ending in '\n' ends in '\n'. -/
theorem suffix_ends_nl (b b' d : List Char) (hb : b = b' ++ ['\n'])
    (hd : d <:+ b) (hne : d ≠ []) : ∃ d', d = d' ++ ['\n'] := by
  obtain ⟨u, hu⟩ := hd
  have hlast : d.getLast? = some '\n' := by
    have h1 : b.getLast? = some '\n' := by
      rw [hb, List.getLast?_append]
      rfl
    rw [← hu, List.getLast?_append] at h1
    cases hdl : d.getLast? with
    | none => exact absurd (List.getLast?_eq_none_iff.mp hdl) hne
    | some x =>
      rw [hdl] at h1
      simp only [Option.or_some] at h1
      exact h1
  exact ⟨d.dropLast, (List.dropLast_append_getLast? '\n' hlast).symm⟩

/-- The whitespace span at a segment boundary: either it stays inside the
segment, or the rest of the segment is all whitespace and the span stops
exactly at the boundary (the next character being '[' or the end). -/
theorem ws_span_boundary (b b' t : List Char) (hb : b = b' ++ ['\n']) (ht : BoundaryOk t) :
    ((b ++ t).takeWhile isPySpace = b.takeWhile isPySpace ∧
      (b ++ t).dropWhile isPySpace = b.dropWhile isPySpace ++ t ∧
      b.dropWhile isPySpace ≠ []) ∨
    (b.dropWhile isPySpace = [] ∧ (b ++ t).takeWhile isPySpace = b ∧
      (b ++ t).dropWhile isPySpace = t) := by
  by_cases hall : ∀ x ∈ b, isPySpace x = true
  · right
    have hdnil : b.dropWhile isPySpace = [] := List.dropWhile_eq_nil_iff.mpr hall
    have htket : t.takeWhile isPySpace = [] ∧ t.dropWhile isPySpace = t := by
      rcases ht with h | ⟨t', h⟩
      · rw [h]; exact ⟨rfl, rfl⟩
      · rw [h]
        constructor
        · rw [List.takeWhile_cons_of_neg]
          decide
        · rw [List.dropWhile_cons_of_neg]
          decide
    refine ⟨hdnil, ?_, ?_⟩
    · rw [List.takeWhile_append_of_pos hall, htket.1, List.append_nil]
    · rw [List.dropWhile_append_of_pos hall, htket.2]
  · left
    have hdrop_ne : b.dropWhile isPySpace ≠ [] := fun hnil =>
      hall (List.dropWhile_eq_nil_iff.mp hnil)
    refine ⟨?_, ?_, hdrop_ne⟩
    · rw [List.takeWhile_append]
      rw [if_neg]
      intro hlen
      apply hall
      intro x hx
      have hts : b.takeWhile isPySpace = b := by
        have hpref := List.takeWhile_prefix (l := b) (p := isPySpace)
        obtain ⟨u, hu⟩ := hpref
        have hu0 : u = [] := by
          have hcg := congrArg List.length hu
          simp only [List.length_append] at hcg
          rw [hlen] at hcg
          have : u.length = 0 := by omega
          exact List.length_eq_zero.mp this
        rw [hu0, List.append_nil] at hu
        exact hu
      rw [← hts] at hx
      exact List.mem_takeWhile_imp hx
    · rw [List.dropWhile_append]
      rw [if_neg (by simpa using hdrop_ne)]

theorem nonempty_of_ends_nl (b b' : List Char) (hb : b = b' ++ ['\n']) : b ≠ [] := by
  rw [hb]
  simp

theorem tail_ends_nl (c : Char) (r0 b' : List Char) (hb : c :: r0 = b' ++ ['\n'])
    (hc : c ≠ '\n') : ∃ r', r0 = r' ++ ['\n'] := by
  cases b' with
  | nil =>
    rw [List.nil_append] at hb
    cases hb
    exact absurd rfl hc
  | cons x b'' =>
    rw [List.cons_append] at hb
    injection hb with h1 h2
    exact ⟨b'', h2⟩

theorem tryTitle_local (b b' t : List Char) (hb : b = b' ++ ['\n']) (ht : BoundaryOk t) :
    tryTitle (b ++ t) = (tryTitle b).map fun x => (x.1, x.2 ++ t) := by
  cases b with
  | nil => exact absurd rfl (nonempty_of_ends_nl [] b' hb)
  | cons c r0 =>
    rw [List.cons_append]
    unfold tryTitle
    dsimp only
    by_cases hup : isUpperAZ c = true
    · rw [if_pos hup, if_pos hup]
      have hc : c ≠ '\n' := fun h => by rw [h] at hup; cases hup
      obtain ⟨r', hr'⟩ := tail_ends_nl c r0 b' hb hc
      obtain ⟨htake, _, _⟩ :=
        span_confined (fun x => decide (x ≠ '\n')) (by decide) r0 r' t hr'
      rw [htake]
      have hlen : ((r0.takeWhile fun x => decide (x ≠ '\n')).take 100).length ≤ r0.length := by
        rw [List.length_take]
        exact le_trans (min_le_right _ _) (List.takeWhile_sublist _).length_le
      by_cases h10 : 10 ≤ ((r0.takeWhile fun x => decide (x ≠ '\n')).take 100).length
      · rw [if_pos h10, if_pos h10]
        rw [drop_append_le r0 t _ hlen]
        rfl
      · rw [if_neg h10, if_neg h10]
        rfl
    · rw [if_neg hup, if_neg hup]
      rfl

theorem tryNum_local (b b' t : List Char) (hb : b = b' ++ ['\n']) (ht : BoundaryOk t) :
    tryNum (b ++ t) = (tryNum b).map fun x => (x.1, x.2 ++ t) := by
  unfold tryNum
  obtain ⟨htk1, hdr1, hne1⟩ := span_confined Char.isDigit (by decide) b b' t hb
  rw [htk1, hdr1]
  by_cases hd1 : (b.takeWhile Char.isDigit).isEmpty = true
  · rw [if_pos hd1, if_pos hd1]
    rfl
  · rw [if_neg hd1, if_neg hd1]
    obtain ⟨q1, hq1⟩ := suffix_ends_nl b b' (b.dropWhile Char.isDigit) hb
      (List.dropWhile_suffix _) hne1
    cases hrem1 : b.dropWhile Char.isDigit with
    | nil => exact absurd hrem1 hne1
    | cons c1 r2 =>
      rw [hrem1] at hq1
      rw [List.cons_append]
      by_cases hc1 : c1 = '.'
      · subst hc1
        obtain ⟨q2, hq2⟩ := tail_ends_nl '.' r2 q1 hq1 (by decide)
        obtain ⟨htk2, hdr2, hne2⟩ := span_confined Char.isDigit (by decide) r2 q2 t hq2
        split
        · rename_i X heqX
          have hX : X = r2 ++ t := by
            injection heqX with h1 h2
            exact h2.symm
          subst hX
          rw [htk2, hdr2]
          dsimp only
          obtain ⟨q3, hq3⟩ := suffix_ends_nl r2 q2 (r2.dropWhile Char.isDigit) hq2
            (List.dropWhile_suffix _) hne2
          rcases ws_span_boundary (r2.dropWhile Char.isDigit) q3 t hq3 ht with
            ⟨htk3, hdr3, hne3⟩ | ⟨hdnil, htk3, hdr3⟩
          · rw [htk3, hdr3]
            by_cases hw : ((r2.dropWhile Char.isDigit).takeWhile isPySpace).isEmpty = true
            · rw [if_pos hw, if_pos hw]
              rfl
            · rw [if_neg hw, if_neg hw]
              obtain ⟨q4, hq4⟩ := suffix_ends_nl (r2.dropWhile Char.isDigit) q3
                ((r2.dropWhile Char.isDigit).dropWhile isPySpace) hq3
                (List.dropWhile_suffix _) hne3
              cases hrem4 : (r2.dropWhile Char.isDigit).dropWhile isPySpace with
              | nil => exact absurd hrem4 hne3
              | cons c4 r5 =>
                rw [hrem4] at hq4
                rw [List.cons_append]
                dsimp only
                by_cases hup : isUpperAZ c4 = true
                · rw [if_pos hup, if_pos hup]
                  have hc4 : c4 ≠ '\n' := fun h => by rw [h] at hup; cases hup
                  obtain ⟨q5, hq5⟩ := tail_ends_nl c4 r5 q4 hq4 hc4
                  obtain ⟨htk5, _, _⟩ :=
                    span_confined (fun x => decide (x ≠ '\n')) (by decide) r5 q5 t hq5
                  rw [htk5]
                  have hlen5 : ((r5.takeWhile fun x => decide (x ≠ '\n')).take 80).length ≤
                      r5.length := by
                    rw [List.length_take]
                    exact le_trans (min_le_right _ _) (List.takeWhile_sublist _).length_le
                  by_cases h5 : 5 ≤ ((r5.takeWhile fun x => decide (x ≠ '\n')).take 80).length
                  · rw [if_pos h5, if_pos h5]
                    rw [drop_append_le r5 t _ hlen5]
                    rfl
                  · rw [if_neg h5, if_neg h5]
                    rfl
                · rw [if_neg hup, if_neg hup]
                  rfl
          · have hallws : ∀ x ∈ r2.dropWhile Char.isDigit, isPySpace x = true :=
              List.dropWhile_eq_nil_iff.mp hdnil
            have htkself : (r2.dropWhile Char.isDigit).takeWhile isPySpace =
                r2.dropWhile Char.isDigit := List.takeWhile_eq_self_iff.mpr hallws
            have hwne : ((r2.dropWhile Char.isDigit).takeWhile isPySpace).isEmpty = false := by
              rw [htkself]
              cases hx : r2.dropWhile Char.isDigit with
              | nil => exact absurd hx hne2
              | cons _ _ => rfl
            rw [htk3, htkself, hdr3, hdnil]
            have hcond : ¬ (r2.dropWhile Char.isDigit).isEmpty = true := fun hc =>
              hne2 (List.isEmpty_iff.mp hc)
            rw [if_neg hcond, if_neg hcond]
            rcases ht with ht0 | ⟨t', ht0⟩
            · rw [ht0]
              rfl
            · rw [ht0]
              dsimp only
              rw [if_neg (by decide)]
              rfl
        · rename_i hno
          exact absurd rfl (hno (r2 ++ t))
      · split
        · rename_i X heqX
          injection heqX with h1 _
          exact absurd h1 hc1
        · split
          · rename_i X heqX
            injection heqX with h1 _
            exact absurd h1 hc1
          · rfl

theorem litPairs_append_nl (ps : List (Char × Char))
    (hps : ∀ pr ∈ ps, pr.1 ≠ '\n' ∧ pr.2 ≠ '\n') :
    ∀ (b b' t : List Char), b = b' ++ ['\n'] →
      litPairs ps (b ++ t) = (litPairs ps b).map fun x => (x.1, x.2 ++ t) := by
  induction ps with
  | nil =>
    intro b b' t hb
    rw [litPairs, litPairs]
    rfl
  | cons pr ps' ih =>
    intro b b' t hb
    cases b with
    | nil => exact absurd rfl (nonempty_of_ends_nl [] b' hb)
    | cons c r0 =>
      rw [List.cons_append, litPairs, litPairs]
      by_cases hc : (c = pr.1 || c = pr.2) = true
      · rw [if_pos hc, if_pos hc]
        have hcnl : c ≠ '\n' := by
          intro hcn
          subst hcn
          rcases Bool.or_eq_true .. |>.mp hc with h | h
          · exact (hps pr (List.mem_cons_self pr ps')).1 (of_decide_eq_true h).symm
          · exact (hps pr (List.mem_cons_self pr ps')).2 (of_decide_eq_true h).symm
        obtain ⟨r', hr'⟩ := tail_ends_nl c r0 b' hb hcnl
        rw [ih (fun q hq => hps q (List.mem_cons_of_mem pr hq)) r0 r' t hr']
        cases litPairs ps' r0 with
        | none => rfl
        | some y => rfl
      · rw [if_neg hc, if_neg hc]
        rfl

theorem chapTail_local (kw r1 q1 t : List Char) (hq : r1 = q1 ++ ['\n'])
    (ht : BoundaryOk t) :
    (if ((r1 ++ t).takeWhile isPySpace).isEmpty = true then none
     else
       if (((r1 ++ t).dropWhile isPySpace).takeWhile Char.isDigit).isEmpty = true then none
       else
         some (kw ++ (r1 ++ t).takeWhile isPySpace ++
             ((r1 ++ t).dropWhile isPySpace).takeWhile Char.isDigit ++
             ((((r1 ++ t).dropWhile isPySpace).dropWhile Char.isDigit).takeWhile
               (fun x => decide (x ≠ '\n'))).take 50,
           (((r1 ++ t).dropWhile isPySpace).dropWhile Char.isDigit).drop
             (((((r1 ++ t).dropWhile isPySpace).dropWhile Char.isDigit).takeWhile
               (fun x => decide (x ≠ '\n'))).take 50).length)) =
    Option.map (fun x => (x.1, x.2 ++ t))
      (if (r1.takeWhile isPySpace).isEmpty = true then none
       else
         if ((r1.dropWhile isPySpace).takeWhile Char.isDigit).isEmpty = true then none
         else
           some (kw ++ r1.takeWhile isPySpace ++
               (r1.dropWhile isPySpace).takeWhile Char.isDigit ++
               (((r1.dropWhile isPySpace).dropWhile Char.isDigit).takeWhile
                 (fun x => decide (x ≠ '\n'))).take 50,
             ((r1.dropWhile isPySpace).dropWhile Char.isDigit).drop
               ((((r1.dropWhile isPySpace).dropWhile Char.isDigit).takeWhile
                 (fun x => decide (x ≠ '\n'))).take 50).length)) := by
  rcases ws_span_boundary r1 q1 t hq ht with ⟨htk1, hdr1, hne1⟩ | ⟨hdnil, htk1, hdr1⟩
  · rw [htk1, hdr1]
    by_cases hw : (r1.takeWhile isPySpace).isEmpty = true
    · rw [if_pos hw, if_pos hw]
      rfl
    · rw [if_neg hw, if_neg hw]
      obtain ⟨q2, hq2⟩ := suffix_ends_nl r1 q1 (r1.dropWhile isPySpace) hq
        (List.dropWhile_suffix _) hne1
      obtain ⟨htk2, hdr2, hne2⟩ := span_confined Char.isDigit (by decide) _ q2 t hq2
      rw [htk2, hdr2]
      by_cases hd : ((r1.dropWhile isPySpace).takeWhile Char.isDigit).isEmpty = true
      · rw [if_pos hd, if_pos hd]
        rfl
      · rw [if_neg hd, if_neg hd]
        obtain ⟨q3, hq3⟩ := suffix_ends_nl (r1.dropWhile isPySpace) q2
          ((r1.dropWhile isPySpace).dropWhile Char.isDigit) hq2
          (List.dropWhile_suffix _) hne2
        obtain ⟨htk3, _, _⟩ :=
          span_confined (fun x => decide (x ≠ '\n')) (by decide) _ q3 t hq3
        rw [htk3]
        have hlen3 : ((((r1.dropWhile isPySpace).dropWhile Char.isDigit).takeWhile
            (fun x => decide (x ≠ '\n'))).take 50).length ≤
            ((r1.dropWhile isPySpace).dropWhile Char.isDigit).length := by
          rw [List.length_take]
          exact le_trans (min_le_right _ _) (List.takeWhile_sublist _).length_le
        rw [drop_append_le _ t _ hlen3]
        rfl
  · have hallws : ∀ x ∈ r1, isPySpace x = true := List.dropWhile_eq_nil_iff.mp hdnil
    have htkself : r1.takeWhile isPySpace = r1 := List.takeWhile_eq_self_iff.mpr hallws
    have hr1ne : r1 ≠ [] := nonempty_of_ends_nl r1 q1 hq
    rw [htk1, htkself, hdr1, hdnil]
    have hcond2 : ¬ r1.isEmpty = true := fun hc => hr1ne (List.isEmpty_iff.mp hc)
    rw [if_neg hcond2, if_neg hcond2]
    have htd : t.takeWhile Char.isDigit = [] := by
      rcases ht with ht0 | ⟨t', ht0⟩
      · rw [ht0]
        rfl
      · rw [ht0, List.takeWhile_cons_of_neg]
        decide
    have hbd : (([] : List Char)).takeWhile Char.isDigit = [] := rfl
    rw [htd, hbd]
    rfl

theorem litPairs_chars (ps : List (Char × Char)) :
    ∀ s k r, litPairs ps s = some (k, r) → ∀ c ∈ k, ∃ pr ∈ ps, c = pr.1 ∨ c = pr.2 := by
  induction ps with
  | nil =>
    intro s k r h c hc
    rw [litPairs] at h
    cases h
    cases hc
  | cons p ps' ih =>
    intro s k r h c hc
    cases s with
    | nil => cases h
    | cons a rest =>
      rw [litPairs] at h
      by_cases ha : (a = p.1 || a = p.2) = true
      · rw [if_pos ha] at h
        cases hrec : litPairs ps' rest with
        | none => rw [hrec] at h; cases h
        | some y =>
          rw [hrec] at h
          cases h
          rcases List.mem_cons.mp hc with hc1 | hc1
          · subst hc1
            refine ⟨p, List.mem_cons_self p ps', ?_⟩
            rcases Bool.or_eq_true .. |>.mp ha with h1 | h1
            · left; exact of_decide_eq_true h1
            · right; exact of_decide_eq_true h1
          · obtain ⟨pr, hpr, hmatch⟩ := ih rest y.1 y.2 hrec c hc1
            exact ⟨pr, List.mem_cons_of_mem p hpr, hmatch⟩
      · rw [if_neg ha] at h
        cases h

theorem keyword_rest_ends_nl (ps : List (Char × Char))
    (hps : ∀ pr ∈ ps, pr.1 ≠ '\n' ∧ pr.2 ≠ '\n') (b b' kw r1 : List Char)
    (hb : b = b' ++ ['\n']) (hlit : litPairs ps b = some (kw, r1)) :
    ∃ q, r1 = q ++ ['\n'] := by
  obtain ⟨hsb, _⟩ := litPairs_dec ps b kw r1 hlit
  have hr1ne : r1 ≠ [] := by
    intro hnil
    rw [hnil, List.append_nil] at hsb
    have hlast : kw.getLast? = some '\n' := by
      rw [← hsb, hb, List.getLast?_append]
      rfl
    have hmem : '\n' ∈ kw := by
      have hkne : kw ≠ [] := by
        intro hk
        rw [hk] at hlast
        cases hlast
      rw [List.getLast?_eq_getLast kw hkne] at hlast
      have := List.getLast_mem hkne
      rw [Option.some_inj.mp hlast] at this
      exact this
    obtain ⟨pr, hpr, hmatch⟩ := litPairs_chars ps b kw r1 hlit '\n' hmem
    rcases hmatch with h | h
    · exact (hps pr hpr).1 h.symm
    · exact (hps pr hpr).2 h.symm
  exact suffix_ends_nl b b' r1 hb ⟨kw, hsb.symm⟩ hr1ne

theorem tryChap_local (b b' t : List Char) (hb : b = b' ++ ['\n']) (ht : BoundaryOk t) :
    tryChap (b ++ t) = (tryChap b).map fun x => (x.1, x.2 ++ t) := by
  unfold tryChap
  rw [litPairs_append_nl ciChapter (by decide) b b' t hb,
    litPairs_append_nl ciSection (by decide) b b' t hb]
  cases hch : litPairs ciChapter b with
  | some x =>
    obtain ⟨kw, r1⟩ := x
    dsimp only [Option.map, Option.orElse]
    obtain ⟨q, hq⟩ := keyword_rest_ends_nl ciChapter (by decide) b b' kw r1 hb hch
    exact chapTail_local kw r1 q t hq ht
  | none =>
    cases hsec : litPairs ciSection b with
    | some x =>
      obtain ⟨kw, r1⟩ := x
      dsimp only [Option.map, Option.orElse]
      obtain ⟨q, hq⟩ := keyword_rest_ends_nl ciSection (by decide) b b' kw r1 hb hsec
      exact chapTail_local kw r1 q t hq ht
    | none => rfl

theorem findOnLine_local (tryH : List Char → Option (List Char × List Char))
    (hloc : ∀ b b' t, b = b' ++ ['\n'] → BoundaryOk t →
      tryH (b ++ t) = (tryH b).map fun x => (x.1, x.2 ++ t)) :
    ∀ (p p' t : List Char), p = p' ++ ['\n'] → BoundaryOk t →
      findOnLine tryH (p ++ t) = (findOnLine tryH p).map fun x => (x.1, x.2 ++ t) := by
  intro p
  induction p with
  | nil =>
    intro p' t hp _
    exact absurd rfl (nonempty_of_ends_nl [] p' hp)
  | cons c r0 ih =>
    intro p' t hp ht
    have h1 := hloc (c :: r0) p' t hp ht
    rw [List.cons_append] at h1
    rw [List.cons_append, findOnLine, h1, findOnLine]
    cases htry : tryH (c :: r0) with
    | some x => rfl
    | none =>
      by_cases hc : c = '\n'
      · rw [if_pos hc, if_pos hc]
        rfl
      · rw [if_neg hc, if_neg hc]
        obtain ⟨r', hr'⟩ := tail_ends_nl c r0 p' hp hc
        exact ih r' t hr' ht

/-- A page of raw text suitable for local scanning: no case-insensitive
occurrence of the marker literal, and a terminating newline. -/
def PageClean (p : List Char) : Prop :=
  hasSubP markerCI p = false ∧ ∃ q, p = q ++ ['\n']

theorem pageClean_of (p : List Char) (h1 : hasSubP markerCI p = false)
    (h2 : p.getLast? = some '\n') : PageClean p :=
  ⟨h1, p.dropLast, (List.dropLast_append_getLast? '\n' h2).symm⟩

theorem scan_marker_segment
    (m : List Char → Option ((Nat × List Char) × List Char))
    (tryH : List Char → Option (List Char × List Char))
    (H1 : ∀ s, (litPairs markerCI s).isSome = false → m s = none)
    (H2 : ∀ (i : Nat) (rest : List Char), m (pageMarker i ++ rest) =
      match findOnLine tryH rest with
      | some x => some ((i, x.1), x.2)
      | none => none)
    (H3 : ∀ b b' t, b = b' ++ ['\n'] → BoundaryOk t →
      tryH (b ++ t) = (tryH b).map fun x => (x.1, x.2 ++ t))
    (H4 : ∀ s t r, tryH s = some (t, r) → r <:+ s)
    (H5 : ∀ s a r, m s = some (a, r) → r <:+ s ∧ r.length < s.length)
    (i : Nat) (p t : List Char) (hp : PageClean p) (ht : BoundaryOk t) :
    scanAux m 0 (pageMarker i ++ p ++ t) =
      (match findOnLine tryH p with
       | some x => [(i, x.1)]
       | none => []) ++ scanAux m 0 t := by
  obtain ⟨hsub, q, hq⟩ := hp
  have hm := H2 i (p ++ t)
  rw [findOnLine_local tryH H3 p q t hq ht] at hm
  cases hfol : findOnLine tryH p with
  | some x =>
    obtain ⟨xt, xr⟩ := x
    rw [hfol] at hm
    dsimp only [Option.map] at hm
    have hmarker : pageMarker i ++ (p ++ t) =
        '[' :: ('P' :: 'A' :: 'G' :: 'E' :: '_' :: (natDigits i ++ [']']) ++ (p ++ t)) := rfl
    rw [hmarker] at hm
    have hscan := scan_cons_match m H5 '['
      ('P' :: 'A' :: 'G' :: 'E' :: '_' :: (natDigits i ++ [']']) ++ (p ++ t))
      ((i, xt)) (xr ++ t) hm
    rw [List.append_assoc, hmarker, hscan]
    have hxr : xr <:+ p := findOnLine_suffix tryH H4 p xt xr hfol
    have hnone : ∀ k, k < xr.length → m (xr.drop k ++ t) = none := by
      intro k hk
      apply H1
      apply no_marker_in_segment p t hsub ht (xr.drop k)
        ((List.drop_suffix k xr).trans hxr)
      intro hnil
      rw [List.drop_eq_nil_iff] at hnil
      omega
    rw [scan_append_none m xr t hnone]
    rfl
  | none =>
    rw [hfol] at hm
    dsimp only [Option.map] at hm
    have hnone : ∀ k, k < (pageMarker i ++ p).length → m ((pageMarker i ++ p).drop k ++ t) = none := by
      intro k hk
      by_cases hk0 : k = 0
      · subst hk0
        rw [List.drop_zero, List.append_assoc]
        exact hm
      · by_cases hkm : k < (pageMarker i).length
        · rw [drop_append_le (pageMarker i) p k (le_of_lt hkm)]
          have hmt : (pageMarker i).drop k =
              ('P' :: 'A' :: 'G' :: 'E' :: '_' :: (natDigits i ++ [']'])).drop (k - 1) := by
            cases k with
            | zero => exact absurd rfl hk0
            | succ j =>
              rfl
          rw [hmt]
          cases hdk : ('P' :: 'A' :: 'G' :: 'E' :: '_' :: (natDigits i ++ [']'])).drop (k - 1) with
          | nil =>
            rw [List.drop_eq_nil_iff] at hdk
            simp only [List.length_cons, List.length_append, List.length_singleton] at hdk
            simp only [pageMarker, List.length_cons, List.length_append,
              List.length_singleton] at hk hkm
            omega
          | cons c rest =>
            apply H1
            rw [List.cons_append]
            apply litPairs_markerCI_head
            apply pageMarker_tail_no_bracket i
            have : c ∈ ('P' :: 'A' :: 'G' :: 'E' :: '_' :: (natDigits i ++ [']'])).drop (k - 1) := by
              rw [hdk]
              exact List.mem_cons_self c rest
            exact (List.drop_subset _ _) this
        · have hje : k - (pageMarker i).length < p.length := by
            simp only [List.length_append] at hk
            omega
          have hdrop : (pageMarker i ++ p).drop k = p.drop (k - (pageMarker i).length) := by
            rw [List.drop_append_eq_append_drop]
            rw [List.drop_eq_nil_iff.mpr (by omega)]
            rw [List.nil_append]
          rw [hdrop]
          apply H1
          apply no_marker_in_segment p t hsub ht (p.drop (k - (pageMarker i).length))
            (List.drop_suffix _ _)
          intro hnil
          rw [List.drop_eq_nil_iff] at hnil
          omega
    rw [scan_append_none m (pageMarker i ++ p) t hnone]
    rfl

theorem matchNum_marker (i : Nat) (rest : List Char) :
    matchNum (pageMarker i ++ rest) =
      match findOnLine tryNum rest with
      | some x => some ((i, x.1), x.2)
      | none => none := by
  unfold matchNum
  rw [parseMarker_marker markerCS i rest (litPairs_marker_cs i rest)]
  dsimp only
  cases findOnLine tryNum rest with
  | some x => rfl
  | none => rfl

theorem matchChap_marker (i : Nat) (rest : List Char) :
    matchChap (pageMarker i ++ rest) =
      match findOnLine tryChap rest with
      | some x => some ((i, x.1), x.2)
      | none => none := by
  unfold matchChap
  rw [parseMarker_marker markerCI i rest (litPairs_marker_ci i rest)]
  dsimp only
  cases findOnLine tryChap rest with
  | some x => rfl
  | none => rfl

/-- The per-page local matches, pages numbered from `i`. -/
def localScanFrom (localF : List Char → Option (List Char)) :
    Nat → List (List Char) → List (Nat × List Char)
  | _, [] => []
  | i, p :: ps =>
    (match localF p with
     | some x => [(i, x)]
     | none => []) ++ localScanFrom localF (i + 1) ps

/-- What the numbered-heading pass can see of a single page: the first
match of its pattern tried at each position of the first line. -/
def localNum (p : List Char) : Option (List Char) :=
  (findOnLine tryNum p).map Prod.fst

def localChap (p : List Char) : Option (List Char) :=
  (findOnLine tryChap p).map Prod.fst

def localTitle (p : List Char) : Option (List Char) :=
  (findOnLine tryTitle p).map Prod.fst

theorem buildFrom_boundary (i : Nat) (ps : List (List Char)) : BoundaryOk (buildFrom i ps) := by
  cases ps with
  | nil => left; rfl
  | cons p ps' =>
    right
    exact ⟨'P' :: 'A' :: 'G' :: 'E' :: '_' :: (natDigits i ++ [']']) ++ p ++ buildFrom (i + 1) ps',
      rfl⟩

theorem scan_buildFrom_num (pages : List (List Char)) :
    ∀ i, (∀ p ∈ pages, PageClean p) →
      scanAux matchNum 0 (buildFrom i pages) = localScanFrom localNum i pages := by
  induction pages with
  | nil => intro i _; rfl
  | cons p ps ih =>
    intro i hclean
    rw [buildFrom]
    rw [scan_marker_segment matchNum tryNum matchNum_none_of_no_marker matchNum_marker
      tryNum_local tryNum_suffix matchNum_dec i p (buildFrom (i + 1) ps)
      (hclean p (List.mem_cons_self p ps)) (buildFrom_boundary (i + 1) ps)]
    rw [ih (i + 1) (fun x hx => hclean x (List.mem_cons_of_mem p hx))]
    rw [localScanFrom, localNum]
    cases findOnLine tryNum p with
    | some x => rfl
    | none => rfl

theorem scan_buildFrom_chap (pages : List (List Char)) :
    ∀ i, (∀ p ∈ pages, PageClean p) →
      scanAux matchChap 0 (buildFrom i pages) = localScanFrom localChap i pages := by
  induction pages with
  | nil => intro i _; rfl
  | cons p ps ih =>
    intro i hclean
    rw [buildFrom]
    rw [scan_marker_segment matchChap tryChap matchChap_none_of_no_marker matchChap_marker
      tryChap_local tryChap_suffix matchChap_dec i p (buildFrom (i + 1) ps)
      (hclean p (List.mem_cons_self p ps)) (buildFrom_boundary (i + 1) ps)]
    rw [ih (i + 1) (fun x hx => hclean x (List.mem_cons_of_mem p hx))]
    rw [localScanFrom, localChap]
    cases findOnLine tryChap p with
    | some x => rfl
    | none => rfl

theorem litPairs_csP_self (l : List Char) : ∀ rest, litPairs (csP l) (l ++ rest) = some (l, rest) := by
  induction l with
  | nil => intro rest; rfl
  | cons c l' ih =>
    intro rest
    rw [List.cons_append]
    show litPairs ((c, c) :: csP l') (c :: (l' ++ rest)) = _
    rw [litPairs, if_pos (by simp), ih rest]
    rfl

theorem titleAt_marker1 (rest : List Char) :
    titleAt (pageMarker 1 ++ rest) =
      match findOnLine tryTitle rest with
      | some x => some x.1
      | none => none := by
  unfold titleAt
  rw [show pageMarker 1 ++ rest = "[PAGE_1]".toList ++ rest from rfl]
  rw [litPairs_csP_self]
  dsimp only
  cases findOnLine tryTitle rest with
  | some x => rfl
  | none => rfl

theorem litPairs_title_ne1 (k : Nat) (hk : k ≠ 1) (rest : List Char) :
    litPairs (csP "[PAGE_1]".toList) (pageMarker k ++ rest) = none := by
  cases h : litPairs (csP "[PAGE_1]".toList) (pageMarker k ++ rest) with
  | none => rfl
  | some x =>
    exfalso
    obtain ⟨y, r⟩ := x
    obtain ⟨hy, hs⟩ := litPairs_csP_eq "[PAGE_1]".toList (pageMarker k ++ rest) y r h
    have hs1 : '[' :: 'P' :: 'A' :: 'G' :: 'E' :: '_' :: (natDigits k ++ (']' :: rest)) =
        '[' :: 'P' :: 'A' :: 'G' :: 'E' :: '_' :: '1' :: ']' :: r := by
      calc '[' :: 'P' :: 'A' :: 'G' :: 'E' :: '_' :: (natDigits k ++ (']' :: rest))
          = pageMarker k ++ rest := by rw [pageMarker]; simp
        _ = "[PAGE_1]".toList ++ r := hs
        _ = '[' :: 'P' :: 'A' :: 'G' :: 'E' :: '_' :: '1' :: ']' :: r := rfl
    have hs2 : natDigits k ++ (']' :: rest) = '1' :: ']' :: r := by
      simpa using hs1
    cases hd : natDigits k with
    | nil => exact natDigits_ne_nil k hd
    | cons c ds =>
      rw [hd, List.cons_append] at hs2
      have hc1 : c = '1' := by
        have := List.head_eq_of_cons_eq hs2
        exact this
      have htl : ds ++ (']' :: rest) = ']' :: r := List.tail_eq_of_cons_eq hs2
      cases ds with
      | nil =>
        have hone : natDigits k = ['1'] := by rw [hd, hc1]
        have hparse := parseDigits_natDigits k
        rw [hone] at hparse
        have h1 : parseDigitsAux 0 ['1'] = (1, ([] : List Char)) := by decide
        rw [h1] at hparse
        exact hk (congrArg Prod.fst hparse).symm
      | cons d ds' =>
        rw [List.cons_append] at htl
        have hdd : d = ']' := List.head_eq_of_cons_eq htl
        have hdig : d.isDigit = true := natDigits_digits k d (by rw [hd]; simp)
        rw [hdd] at hdig
        exact absurd hdig (by decide)

theorem titleAt_marker_ne1 (k : Nat) (hk : k ≠ 1) (rest : List Char) :
    titleAt (pageMarker k ++ rest) = none := by
  unfold titleAt
  rw [litPairs_title_ne1 k hk rest]

/-- The page marker without its leading '['. -/
def markerTail (j : Nat) : List Char := 'P' :: 'A' :: 'G' :: 'E' :: '_' :: (natDigits j ++ [']'])

theorem pageMarker_eq_cons (j : Nat) : pageMarker j = '[' :: markerTail j := rfl

theorem markerTail_no_lb (j : Nat) : ∀ c ∈ markerTail j, c ≠ '[' := by
  intro c hc
  rw [markerTail] at hc
  simp at hc
  rcases hc with h | h | h | h | h | h | h
  · rw [h]; decide
  · rw [h]; decide
  · rw [h]; decide
  · rw [h]; decide
  · rw [h]; decide
  · intro hcl
    have hdig := natDigits_digits j c h
    rw [hcl] at hdig
    exact absurd hdig (by decide)
  · rw [h]; decide

theorem titleAt_segment_pos (j : Nat) (p t : List Char)
    (hp : PageClean p) (ht : BoundaryOk t) :
    ∀ k', k' + 1 < (pageMarker j ++ p).length →
      titleAt ((pageMarker j ++ p).drop (k' + 1) ++ t) = none := by
  obtain ⟨hsub, q, hq⟩ := hp
  intro k' hk
  rw [pageMarker_eq_cons, List.cons_append, List.drop_succ_cons,
    List.drop_append_eq_append_drop]
  by_cases hkt : k' < (markerTail j).length
  · have hlen : ((markerTail j).drop k').length = (markerTail j).length - k' := by
      simp
    cases hdk : (markerTail j).drop k' with
    | nil =>
      rw [hdk] at hlen
      simp at hlen
      omega
    | cons c r =>
      have hc : c ∈ markerTail j := by
        have : c ∈ (markerTail j).drop k' := by rw [hdk]; exact List.mem_cons_self c r
        exact List.mem_of_mem_drop this
      rw [List.cons_append, List.cons_append]
      exact titleAt_none_of_no_marker _ (litPairs_markerCI_head c _ (markerTail_no_lb j c hc))
  · have hnil : (markerTail j).drop k' = [] := List.drop_eq_nil_of_le (le_of_not_lt hkt)
    rw [hnil, List.nil_append]
    have hu : p.drop (k' - (markerTail j).length) <:+ p := List.drop_suffix _ _
    have hune : p.drop (k' - (markerTail j).length) ≠ [] := by
      intro hcon
      have : p.length ≤ k' - (markerTail j).length := by
        by_contra hlt
        have : 0 < (p.drop (k' - (markerTail j).length)).length := by
          simp
          omega
        rw [hcon] at this
        simp at this
      have hk2 : (pageMarker j ++ p).length = (markerTail j).length + 1 + p.length := by
        rw [pageMarker_eq_cons]
        simp
        omega
      omega
    exact titleAt_none_of_no_marker _ (no_marker_in_segment p t hsub ht _ hu hune)

theorem searchTitle_append_none (w t : List Char)
    (h : ∀ k, k < w.length → titleAt (w.drop k ++ t) = none) :
    searchTitle (w ++ t) = searchTitle t := by
  induction w with
  | nil => rfl
  | cons c w' ih =>
    have h0 := h 0 (by simp)
    rw [List.drop_zero, List.cons_append] at h0
    rw [List.cons_append, searchTitle, h0]
    exact ih fun k hk => h (k + 1) (by simpa using Nat.succ_lt_succ hk)

theorem searchTitle_segment_skip (j : Nat) (hj : j ≠ 1) (p t : List Char)
    (hp : PageClean p) (ht : BoundaryOk t) :
    searchTitle (pageMarker j ++ p ++ t) = searchTitle t := by
  apply searchTitle_append_none
  intro k hk
  cases k with
  | zero =>
    rw [List.drop_zero, List.append_assoc]
    exact titleAt_marker_ne1 j hj (p ++ t)
  | succ k' => exact titleAt_segment_pos j p t hp ht k' hk

theorem searchTitle_buildFrom_tail (pages : List (List Char)) :
    ∀ j, 2 ≤ j → (∀ p ∈ pages, PageClean p) →
      searchTitle (buildFrom j pages) = none := by
  induction pages with
  | nil => intro j _ _; rfl
  | cons p ps ih =>
    intro j hj hclean
    rw [buildFrom]
    rw [searchTitle_segment_skip j (by omega) p (buildFrom (j + 1) ps)
      (hclean p (List.mem_cons_self p ps)) (buildFrom_boundary (j + 1) ps)]
    exact ih (j + 1) (by omega) (fun x hx => hclean x (List.mem_cons_of_mem p hx))

theorem searchTitle_buildFrom (pages : List (List Char))
    (hclean : ∀ p ∈ pages, PageClean p) :
    searchTitle (buildFrom 1 pages) =
      match pages with
      | [] => none
      | p :: _ => localTitle p := by
  cases pages with
  | nil => rfl
  | cons p ps =>
    obtain ⟨hsub, q, hq⟩ := hclean p (List.mem_cons_self p ps)
    have h0 : titleAt ('[' :: (markerTail 1 ++ p ++ buildFrom 2 ps)) =
        (findOnLine tryTitle p).map Prod.fst := by
      have hsh : '[' :: (markerTail 1 ++ p ++ buildFrom 2 ps) =
          pageMarker 1 ++ (p ++ buildFrom 2 ps) := by
        rw [pageMarker_eq_cons]
        simp
      rw [hsh, titleAt_marker1]
      rw [findOnLine_local tryTitle tryTitle_local p q (buildFrom 2 ps) hq
        (buildFrom_boundary 2 ps)]
      cases findOnLine tryTitle p with
      | some x => rfl
      | none => rfl
    have hshape : buildFrom 1 (p :: ps) =
        '[' :: (markerTail 1 ++ p ++ buildFrom 2 ps) := by
      rw [buildFrom, pageMarker_eq_cons]
      simp
    rw [hshape, searchTitle, h0]
    dsimp only
    cases hf : findOnLine tryTitle p with
    | some x =>
      rw [localTitle, hf]
      rfl
    | none =>
      rw [localTitle, hf]
      rw [searchTitle_append_none (markerTail 1 ++ p) (buildFrom 2 ps) ?hpos]
      · exact searchTitle_buildFrom_tail ps 2 (le_refl 2)
          (fun x hx => hclean x (List.mem_cons_of_mem p hx))
      case hpos =>
        intro k hk
        have hdk : (markerTail 1 ++ p).drop k = (pageMarker 1 ++ p).drop (k + 1) := by
          rw [pageMarker_eq_cons, List.cons_append, List.drop_succ_cons]
        rw [hdk]
        refine titleAt_segment_pos 1 p (buildFrom 2 ps) ⟨hsub, q, hq⟩
          (buildFrom_boundary 2 ps) k ?_
        rw [pageMarker_eq_cons, List.cons_append]
        simp only [List.length_cons, List.length_append] at hk ⊢
        omega

theorem localScanFrom_idx (f : List Char → Option (List Char)) (ps : List (List Char)) :
    ∀ i x, x ∈ localScanFrom f i ps → i ≤ x.1 := by
  induction ps with
  | nil => intro i x hx; cases hx
  | cons p ps' ih =>
    intro i x hx
    rw [localScanFrom] at hx
    rcases List.mem_append.mp hx with h | h
    · cases hfp : f p with
      | some t =>
        rw [hfp] at h
        simp at h
        rw [h]
      | none =>
        rw [hfp] at h
        cases h
    · exact le_trans (Nat.le_succ i) (ih (i + 1) x h)

theorem localScanFrom_count (f : List Char → Option (List Char)) (ps : List (List Char)) :
    ∀ i n, ((localScanFrom f i ps).filter fun x => decide (x.1 = n)).length ≤ 1 := by
  induction ps with
  | nil => intro i n; simp [localScanFrom]
  | cons p ps' ih =>
    intro i n
    rw [localScanFrom, List.filter_append, List.length_append]
    by_cases hn : n < i + 1
    · have hrest : (localScanFrom f (i + 1) ps').filter (fun x => decide (x.1 = n)) = [] := by
        rw [List.filter_eq_nil_iff]
        intro a ha
        have := localScanFrom_idx f ps' (i + 1) a ha
        simp only [decide_eq_true_eq]
        omega
      rw [hrest]
      simp only [List.length_nil, Nat.add_zero]
      cases hfp : f p with
      | some t =>
        rw [List.filter_cons]
        split <;> simp
      | none => simp
    · have hseg : ((match f p with
          | some x => [(i, x)]
          | none => ([] : List (Nat × List Char))).filter
            fun (x : Nat × List Char) => decide (x.1 = n)).length = 0 := by
        cases hfp : f p with
        | some t =>
          have hd : decide ((i, t).1 = n) = false := by
            simp only [decide_eq_false_iff_not]
            omega
          rw [List.filter_cons, hd]
          rfl
        | none => rfl
      rw [hseg, Nat.zero_add]
      exact ih (i + 1) n

/-- C10 (amended): on clean page texts — pages that contain no
case-insensitive occurrence of "[PAGE_" and that each end with a newline —
PatternStrategy is per-page local: each of the two heading passes
contributes at most one heading per page, obtained by trying its pattern
only on the first line of that page's raw text (the line that holds the
page's [PAGE_n] marker), and the title comes only from the first line of
page 1.  Headings beginning on a later line of a page are never emitted. -/
theorem pattern_locality (pages : List (List Char))
    (hclean : ∀ p ∈ pages, PageClean p) :
    extract_with_regex_fallback pages =
      { title :=
          (match pages with
          | [] => untitledTitle
          | p :: _ =>
            match localTitle p with
            | some t => stripWs t
            | none => untitledTitle),
        outline :=
          ((localScanFrom localNum 1 (pages.take 50)).map (fun (x : Nat × List Char) =>
              let t := stripWs x.2
              ({ level := if 1 < t.count '.' then HLevel.h3 else HLevel.h2,
                 text := t, page := (x.1 : Int) } : Entry)) ++
            (localScanFrom localChap 1 (pages.take 50)).map (fun (x : Nat × List Char) =>
              ({ level := HLevel.h1, text := stripWs x.2, page := (x.1 : Int) } : Entry))).take 20 } ∧
    (∀ n : Nat, ((scanMatches matchNum (buildFrom 1 (pages.take 50))).filter
        fun x => decide (x.1 = n)).length ≤ 1) ∧
    (∀ n : Nat, ((scanMatches matchChap (buildFrom 1 (pages.take 50))).filter
        fun x => decide (x.1 = n)).length ≤ 1) := by
  have hcleanT : ∀ p ∈ pages.take 50, PageClean p :=
    fun p hp => hclean p (List.mem_of_mem_take hp)
  have hnum := scan_buildFrom_num (pages.take 50) 1 hcleanT
  have hchap := scan_buildFrom_chap (pages.take 50) 1 hcleanT
  have htitle := searchTitle_buildFrom (pages.take 50) hcleanT
  refine ⟨?_, ?_, ?_⟩
  · unfold extract_with_regex_fallback scanMatches
    dsimp only
    rw [hnum, hchap, htitle]
    cases pages with
    | nil => rfl
    | cons p ps => rfl
  · intro n
    unfold scanMatches
    rw [hnum]
    exact localScanFrom_count localNum (pages.take 50) 1 n
  · intro n
    unfold scanMatches
    rw [hchap]
    exact localScanFrom_count localChap (pages.take 50) 1 n

/-- C10 counterexample: a single page whose raw text happens to contain
the string "[PAGE_1]" on a later line.  The numbered-heading pass emits
TWO headings for page 1 — one from the marker line and one from the line
after the embedded pseudo-marker — refuting "at most one numbered heading
per page" and "headings that begin on any later line of a page are never
emitted". -/
theorem pattern_locality_counterexample :
    ((extract_with_regex_fallback
        ["1. Hello World stuff x\n[PAGE_1]2. Hello World stuff\n".toList]).outline.filter
      fun e => decide (e.page = 1)).length = 2 := by
  decide

def pagesW : List (List Char) :=
  ["1. Hello World stuff\nrest of page one\n".toList,
   "Chapter 2 introduction text\n".toList]

/-- C10 witness: the amended locality theorem applied to two concrete
clean pages. -/
theorem pattern_locality_witness :
    (∀ p ∈ pagesW, PageClean p) ∧
      (extract_with_regex_fallback pagesW =
        { title :=
            (match pagesW with
            | [] => untitledTitle
            | p :: _ =>
              match localTitle p with
              | some t => stripWs t
              | none => untitledTitle),
          outline :=
            ((localScanFrom localNum 1 (pagesW.take 50)).map (fun (x : Nat × List Char) =>
                let t := stripWs x.2
                ({ level := if 1 < t.count '.' then HLevel.h3 else HLevel.h2,
                   text := t, page := (x.1 : Int) } : Entry)) ++
              (localScanFrom localChap 1 (pagesW.take 50)).map (fun (x : Nat × List Char) =>
                ({ level := HLevel.h1, text := stripWs x.2, page := (x.1 : Int) } : Entry))).take 20 } ∧
      (∀ n : Nat, ((scanMatches matchNum (buildFrom 1 (pagesW.take 50))).filter
          fun x => decide (x.1 = n)).length ≤ 1) ∧
      (∀ n : Nat, ((scanMatches matchChap (buildFrom 1 (pagesW.take 50))).filter
          fun x => decide (x.1 = n)).length ≤ 1)) := by
  have hc : ∀ p ∈ pagesW, PageClean p := by
    intro p hp
    rw [pagesW] at hp
    simp only [List.mem_cons, List.not_mem_nil, or_false] at hp
    rcases hp with h | h <;> subst h <;>
      exact pageClean_of _ (by decide) (by decide)
  exact ⟨hc, pattern_locality pagesW hc⟩
